import Mathlib

/-!
A verification development for the RadDB relational-database engine.

The definitions below are shallow embeddings of the Rust source:

* `rad_db-structure/src/identifier.rs` (hierarchical identifiers),
* `rad_db-types/src/lib.rs` (the tagged value union and `SameType`),
* `rad_db-structure/src/key/primary.rs` (primary keys and their equality),
* `rad_db-types/src/serialization.rs` and `deserialization.rs` (line codec),
* `rad_db-algebra/src/query/conditions.rs` (conditions, selectivity, AND-splitting),
* `rad_db-algebra/src/query/query_node.rs` (query trees, schemas, estimates,
  the executor),
* `rad_db-algebra/src/query/optimization.rs` (the AND-splitting pass),
* `rad_db-structure/src/relations/tuple_storage/extendible_hashing.rs`
  (the extendible-hashing block directory) together with
  `tuple_storage/block.rs` (block contents) and `tuple_storage/mod.rs` /
  `relations/relation_struct.rs` (the insert wrappers).

Machine integers (`usize`, `u64`, `BigUint`) are modelled as `Nat` with
explicit `% 2 ^ w` or explicit saturation where the code can overflow or
saturate.  `f64` arithmetic in the selectivity estimator is modelled exactly
over `ℚ` extended with infinities and NaN; all concrete inputs used in
theorems keep the values dyadic, where `f64` arithmetic is exact.
-/

namespace RadDB

/-- Identifier from `identifier.rs`: a base name with an optional parent
namespace (`parent: Option<Box<Identifier>>, base: String`). -/
inductive Identifier where
  | base (s : String)
  | child (parent : Identifier) (s : String)
deriving DecidableEq, Repr

/-! ## Values (`rad_db-types/src/lib.rs`)

The embedding covers the `Signed`, `Unsigned`, `Text::Char`, `Text::String`
and `Boolean` variants.  `Float`/`Double` (IEEE payloads), the `Time`
variants (their textual form comes from the external `chrono` crate) and
`Text::Binary`/`BinaryString`/`Blob` (for which `serialize_values` is
`unimplemented!()`) are outside the embedded fragment; no claim in this
development depends on them. -/

/-- Unsigned variants (`Unsigned` enum): payload widths 8/16/32/64 bits. -/
inductive UnsignedV where
  | byte (n : ℕ)
  | short (n : ℕ)
  | int (n : ℕ)
  | long (n : ℕ)
deriving DecidableEq, Repr

/-- Signed variants (`Signed` enum). -/
inductive SignedV where
  | byte (n : ℤ)
  | short (n : ℤ)
  | int (n : ℤ)
  | long (n : ℤ)
deriving DecidableEq, Repr

/-- Numeric variants (`Numeric` enum), restricted to the integer cases. -/
inductive NumericV where
  | signed (s : SignedV)
  | unsigned (u : UnsignedV)
deriving DecidableEq, Repr

/-- Text variants (`Text` enum), restricted to `Char` and `String`.
The second field of `string` is the optional length bound. -/
inductive TextV where
  | char (c : Char)
  | str (s : String) (bound : Option ℕ)
deriving DecidableEq, Repr

/-- The value union (`Type` in `rad_db-types`; the algebra crate re-exports
it as `Value`). -/
inductive Value where
  | numeric (n : NumericV)
  | text (t : TextV)
  | boolean (b : Bool)
deriving DecidableEq, Repr

/-- SameType for `Unsigned`: variants must coincide, payloads are ignored. -/
def UnsignedV.sameType : UnsignedV → UnsignedV → Bool
  | .byte _, .byte _ => true
  | .short _, .short _ => true
  | .int _, .int _ => true
  | .long _, .long _ => true
  | _, _ => false

/-- SameType for `Signed`. -/
def SignedV.sameType : SignedV → SignedV → Bool
  | .byte _, .byte _ => true
  | .short _, .short _ => true
  | .int _, .int _ => true
  | .long _, .long _ => true
  | _, _ => false

/-- SameType for `Numeric`. -/
def NumericV.sameType : NumericV → NumericV → Bool
  | .signed a, .signed b => a.sameType b
  | .unsigned a, .unsigned b => a.sameType b
  | _, _ => false

/-- SameType for `Text`: strings additionally compare their length bounds. -/
def TextV.sameType : TextV → TextV → Bool
  | .char _, .char _ => true
  | .str _ b1, .str _ b2 => b1 == b2
  | _, _ => false

/-- SameType for `Type`. -/
def Value.sameType : Value → Value → Bool
  | .numeric a, .numeric b => a.sameType b
  | .text a, .text b => a.sameType b
  | .boolean _, .boolean _ => true
  | _, _ => false

/-- SameType for `Vec<&Type>`: equal lengths, then element-wise `same_type`.
Embeds the `impl SameType for Vec<&Type>` loop. -/
def sameTypeList (a b : List Value) : Bool :=
  if a.length ≠ b.length then false
  else (a.zip b).all fun p => p.1.sameType p.2

/-! ## PrimaryKey (`key/primary.rs`) -/

/-- PrimaryKey: the projected key values plus the four seed words
(`PrimaryKey(Vec<&'a Type>, [u64; 4])`).  The seeds never participate in
equality. -/
structure PrimaryKey where
  values : List Value
  seeds : List ℕ
deriving DecidableEq, Repr

/-- Embedding of `impl PartialEq for PrimaryKey`.  Note the source builds
BOTH iterators from `self` (`let mut other_iter = self.iter();`), so the
value loop compares `self` against itself; the embedding reproduces that
verbatim by zipping `a.values` with `a.values`. -/
def PrimaryKey.eq (a b : PrimaryKey) : Bool :=
  if ¬ sameTypeList a.values b.values then false
  else (a.values.zip a.values).all fun p => p.1 == p.2

/-! ## Projection schemas (`QueryNode::projection` in `query_node.rs`) -/

/-- The `resulting_relation` computed by the `QueryNode::projection`
constructor: for each requested identifier in order, look up the first
matching `(inner_id, ty)` entry of the child schema
(`.position(|(inner_id, _)| id == inner_id)` followed by indexing) and emit
`(id, ty)`; requested identifiers with no match are dropped by
`filter_map`. -/
def projectionResultingRelation {τ : Type} (childRel : List (Identifier × τ))
    (projections : List Identifier) : List (Identifier × τ) :=
  projections.filterMap fun id =>
    (childRel.find? fun p => p.1 == id).map fun p => (id, p.2)

/-! ## Value line codec (`serialization.rs` / `deserialization.rs`)

Strings are handled at the `List Char` level.  Rust byte lengths and Unicode
whitespace coincide with character counts and the ASCII whitespace test on
the printable-ASCII strings to which the round-trip theorem is scoped. -/

/-- Whitespace as trimmed by the deserializer's final `current.trim()`
check (ASCII fragment; agrees with Rust on printable ASCII). -/
def isWhitespaceChar (c : Char) : Bool :=
  c = ' ' ∨ c = '\t' ∨ c = '\n' ∨ c = '\r'

/-- The decimal digit characters emitted by Rust integer Display. -/
def digitChar : ℕ → Char
  | 0 => '0'
  | 1 => '1'
  | 2 => '2'
  | 3 => '3'
  | 4 => '4'
  | 5 => '5'
  | 6 => '6'
  | 7 => '7'
  | 8 => '8'
  | 9 => '9'
  | _ => '*'

/-- Decimal serialization of an unsigned integer, most significant digit
first (Rust `Display` for the unsigned types; 0 prints as "0"). -/
def natSerialize (n : ℕ) : List Char :=
  if n = 0 then ['0'] else ((Nat.digits 10 n).map digitChar).reverse

/-- Decimal serialization of a signed integer (leading `-` when
negative). -/
def intSerialize (i : ℤ) : List Char :=
  if i < 0 then '-' :: natSerialize i.natAbs else natSerialize i.toNat

/-- Numeric value of a decimal digit character. -/
def digitVal (c : Char) : Option ℕ :=
  if 48 ≤ c.toNat ∧ c.toNat ≤ 57 then some (c.toNat - 48) else none

/-- Accumulating decimal parser (`str::parse` digit loop). -/
def parseDigitsAux : List Char → ℕ → Option ℕ
  | [], acc => some acc
  | c :: rest, acc =>
      match digitVal c with
      | some d => parseDigitsAux rest (10 * acc + d)
      | none => none

/-- Parse a nonempty all-digit string. -/
def parseDigits : List Char → Option ℕ
  | [] => none
  | cs => parseDigitsAux cs 0

/-- Rust integer `FromStr` accepts one optional leading `+`. -/
def stripPlus (cs : List Char) : List Char :=
  if cs.head? = some '+' then cs.tail else cs

/-- Embedding of `str::parse` for an unsigned width with maximum value
`maxVal` (overflow yields an error). -/
def parseUnsigned (maxVal : ℕ) (cs : List Char) : Option ℕ :=
  (parseDigits (stripPlus cs)).bind fun v =>
    if v ≤ maxVal then some v else none

/-- Embedding of `str::parse` for a signed width with bounds
`[minVal, maxVal]`. -/
def parseSigned (minVal maxVal : ℤ) (cs : List Char) : Option ℤ :=
  if cs.head? = some '-' then
    (parseDigits cs.tail).bind fun v =>
      if minVal ≤ -(v : ℤ) ∧ -(v : ℤ) ≤ maxVal then some (-(v : ℤ)) else none
  else
    (parseDigits (stripPlus cs)).bind fun v =>
      if minVal ≤ (v : ℤ) ∧ (v : ℤ) ≤ maxVal then some ((v : ℤ)) else none

/-- Embedding of `serialize_values` on one value: `Text` is double-quoted
WITHOUT any escaping of embedded quotes or backslashes
(`format!("\"{}\"", s)`); every other embedded variant uses its decimal /
`true`/`false` Display form.  (The `Binary`/`BinaryString`/`Blob` arms are
`unimplemented!()` panics in the source and those variants are outside the
embedded `Value`.) -/
def serializeValue : Value → List Char
  | .numeric (.unsigned (.byte n)) => natSerialize n
  | .numeric (.unsigned (.short n)) => natSerialize n
  | .numeric (.unsigned (.int n)) => natSerialize n
  | .numeric (.unsigned (.long n)) => natSerialize n
  | .numeric (.signed (.byte i)) => intSerialize i
  | .numeric (.signed (.short i)) => intSerialize i
  | .numeric (.signed (.int i)) => intSerialize i
  | .numeric (.signed (.long i)) => intSerialize i
  | .boolean b => if b then "true".data else "false".data
  | .text (.char c) => '\"' :: c :: ['\"']
  | .text (.str s _) => '\"' :: (s.data ++ ['\"'])

/-- Embedding of `serialize_values`: serialize each value and join the
fields with the `|` separator. -/
def serializeValues (vs : List Value) : List Char :=
  List.intercalate ['|'] (vs.map serializeValue)

/-- The tokenizer loop of `parse_using_types_helper`: `"` toggles the
in-quote flag and is dropped, `\` unconditionally copies the next character
(an error when there is none), an unquoted `|` ends the current field, any
other character is appended.  At the end of input the final field is kept
only when it does not trim to the empty string. -/
def tokenizeAux : List Char → Bool → List Char → List (List Char) →
    Option (List (List Char))
  | [], _inQuote, current, acc =>
      some (if current.all isWhitespaceChar then acc else acc ++ [current])
  | c :: rest, inQuote, current, acc =>
      if c = '\"' then tokenizeAux rest (!inQuote) current acc
      else if c = '\\' then
        match rest with
        | [] => none
        | c2 :: rest2 => tokenizeAux rest2 inQuote (current ++ [c2]) acc
      else if c = '|' ∧ inQuote = false then tokenizeAux rest inQuote [] (acc ++ [current])
      else tokenizeAux rest inQuote (current ++ [c]) acc
termination_by structural cs => cs

/-- Parse one field against the base value of its column type (the Rust
code clones the base `Type` and overwrites its payload). -/
def parseByExample : Value → List Char → Option Value
  | .numeric (.unsigned (.byte _)), f =>
      (parseUnsigned 255 f).map fun n => .numeric (.unsigned (.byte n))
  | .numeric (.unsigned (.short _)), f =>
      (parseUnsigned 65535 f).map fun n => .numeric (.unsigned (.short n))
  | .numeric (.unsigned (.int _)), f =>
      (parseUnsigned (2 ^ 32 - 1) f).map fun n => .numeric (.unsigned (.int n))
  | .numeric (.unsigned (.long _)), f =>
      (parseUnsigned (2 ^ 64 - 1) f).map fun n => .numeric (.unsigned (.long n))
  | .numeric (.signed (.byte _)), f =>
      (parseSigned (-128) 127 f).map fun i => .numeric (.signed (.byte i))
  | .numeric (.signed (.short _)), f =>
      (parseSigned (-32768) 32767 f).map fun i => .numeric (.signed (.short i))
  | .numeric (.signed (.int _)), f =>
      (parseSigned (-(2 ^ 31)) (2 ^ 31 - 1) f).map fun i =>
        .numeric (.signed (.int i))
  | .numeric (.signed (.long _)), f =>
      (parseSigned (-(2 ^ 63)) (2 ^ 63 - 1) f).map fun i =>
        .numeric (.signed (.long i))
  | .boolean _, f =>
      if f = "true".data then some (.boolean true)
      else if f = "false".data then some (.boolean false)
      else none
  | .text (.char _), f =>
      match f with
      | [c] => some (.text (.char c))
      | _ => none
  | .text (.str _ bound), f =>
      match bound with
      | some maxLen =>
          if maxLen < f.length then none
          else some (.text (.str (String.mk f) (some maxLen)))
      | none => some (.text (.str (String.mk f) none))

/-- The pairing loop of `parse_using_types_helper`:
`while let (Some(base_type), Some(string)) = (type_iter.next(), string_iter.next())`
followed by `if !(string_iter.next().is_none() && type_iter.next().is_none())`.
The exit iteration evaluates the tuple, consuming one element from each
iterator where available, before the pattern match fails; the final check
then pulls each iterator once more.  So the loop parses pairwise while both
run, and a leftover of exactly ONE type or ONE field is silently eaten by
the failing pattern match and accepted — only a surplus of two or more on
either side is an error.  A per-field parse failure propagates (`?`). -/
def parseTypesLoop : List Value → List (List Char) → Option (List Value)
  | t :: tys, f :: fields =>
      (parseByExample t f).bind fun v =>
        (parseTypesLoop tys fields).map fun vs => v :: vs
  | tys, fields =>
      if tys.length ≤ 1 ∧ fields.length ≤ 1 then some [] else none

/-- Embedding of `parse_using_types_helper`: tokenize, then run the
tolerant pairing loop against the expected types. -/
def parseUsingTypes (cs : List Char) (tys : List Value) :
    Option (List Value) :=
  (tokenizeAux cs false [] []).bind fun fields => parseTypesLoop tys fields

/-- The class of embedded values on which the codec round-trips: integers
within their width (always true of real Rust payloads), booleans,
printable-ASCII characters other than space, `"` and `\`, and
printable-ASCII strings without `"` or `\` that contain a non-space
character and respect their own length bound. -/
def roundTrippable : Value → Prop
  | .numeric (.unsigned (.byte n)) => n ≤ 255
  | .numeric (.unsigned (.short n)) => n ≤ 65535
  | .numeric (.unsigned (.int n)) => n ≤ 2 ^ 32 - 1
  | .numeric (.unsigned (.long n)) => n ≤ 2 ^ 64 - 1
  | .numeric (.signed (.byte i)) => -128 ≤ i ∧ i ≤ 127
  | .numeric (.signed (.short i)) => -32768 ≤ i ∧ i ≤ 32767
  | .numeric (.signed (.int i)) => -(2 ^ 31) ≤ i ∧ i ≤ 2 ^ 31 - 1
  | .numeric (.signed (.long i)) => -(2 ^ 63) ≤ i ∧ i ≤ 2 ^ 63 - 1
  | .boolean _ => True
  | .text (.char c) => 33 ≤ c.toNat ∧ c.toNat ≤ 126 ∧ c ≠ '\"' ∧ c ≠ '\\'
  | .text (.str s bound) =>
      (∀ c ∈ s.data, 32 ≤ c.toNat ∧ c.toNat ≤ 126 ∧ c ≠ '\"' ∧ c ≠ '\\')
        ∧ (∃ c ∈ s.data, c ≠ ' ')
        ∧ (∀ b, bound = some b → s.data.length ≤ b)

/-! ## Conditions (`rad_db-algebra/src/query/conditions.rs`) -/

/-- Operand of a condition.  The `Float` payload is an `f64` in the source;
it is inert data for every operation embedded here and is carried as an
exact rational. -/
inductive Operand where
  | id (i : Identifier)
  | signedNumber (n : ℤ)
  | unsignedNumber (n : ℕ)
  | float (q : ℚ)
  | str (s : String)

mutual
/-- ConditionOperation: `Equals(Operand) | Nequals(Operand) |
And(Box<ConditionOperation>, Box<Condition>) | Or(..)`. -/
inductive ConditionOperation : Type where
  | equals (o : Operand)
  | nequals (o : Operand)
  | and (op : ConditionOperation) (rest : Condition)
  | or (op : ConditionOperation) (rest : Condition)

/-- Condition: a base identifier together with an operation tree. -/
inductive Condition : Type where
  | mk (base : Identifier) (operation : ConditionOperation)
end

/-- The operation tree of a condition. -/
def Condition.operation : Condition → ConditionOperation
  | .mk _ op => op

/-- The base identifier of a condition. -/
def Condition.base : Condition → Identifier
  | .mk b _ => b

/-- Worker for `Condition::split_and`, recursing on the operation of a
condition `Condition(b, op)`. -/
def splitAndAux : Identifier → ConditionOperation → List Condition
  | b, .and inner (.mk b2 nextOp) => splitAndAux b inner ++ splitAndAux b2 nextOp
  | b, op => [.mk b op]

/-- Embedding of `Condition::split_and`.  The source loops
`while let Condition { base, operation: And(inner, next) } = ptr`,
extending the output with the recursive split of `Condition(base, *inner)`
and walking down `next`; the final non-`And` pointer is pushed last.  That
loop unfolds to exactly the recursion of `splitAndAux`. -/
def Condition.splitAnd : Condition → List Condition
  | .mk b op => splitAndAux b op

/-! ## Tuples and the executor (`query_node.rs`) -/

/-- Tuple: a positional vector of values (`Tuple(Vec<Type>)`).  Tuple
concatenation (`concat` / the `Add` impls) is list append. -/
abbrev Tuple := List Value

/-- The query-tree fragment exercised by the claims: `Source` (carrying its
relation's block iterator as the list of per-bucket tuple vectors),
`Projection`, `Selection` and `CrossProduct`, with the children arities the
constructors enforce.  Join operators are not needed by any claim and are
omitted from the embedding. -/
inductive QNode where
  | source (blocks : List (List Tuple))
  | projection (fields : List Identifier) (child : QNode)
  | selection (cond : Condition) (child : QNode)
  | crossProduct (left right : QNode)

/-- QueryResult: either the repeatable block stream of a source relation or
a materialized one-shot tuple list (`QueryResult::from_source` /
`QueryResult::with_tuples`). -/
inductive QueryRes where
  | fromSource (blocks : List (List Tuple))
  | materialized (tuples : List Tuple)

/-- ITEMS_PER_BLOCK from `query_result.rs`. -/
def ITEMS_PER_BLOCK : ℕ := 16

/-- Chunking used by `QueryResult::blocks` on a materialized list: groups of
exactly `ITEMS_PER_BLOCK` tuples with a final partial group when nonempty. -/
def chunksOf16 : List Tuple → List (List Tuple)
  | [] => []
  | t :: ts =>
      ((t :: ts).take ITEMS_PER_BLOCK) :: chunksOf16 ((t :: ts).drop ITEMS_PER_BLOCK)
termination_by l => l.length
decreasing_by
  simp only [List.length_drop]
  simp [ITEMS_PER_BLOCK]
  omega

/-- Tuple stream of a result (`QueryResult::tuples`). -/
def QueryRes.tuples : QueryRes → List Tuple
  | .fromSource bs => bs.flatten
  | .materialized ts => ts

/-- Block stream of a result (`QueryResult::blocks`). -/
def QueryRes.blocks : QueryRes → List (List Tuple)
  | .fromSource bs => bs
  | .materialized ts => chunksOf16 ts

/-- Repeatable block stream (`QueryResult::repeatable_blocks`): available
only for a source-backed result. -/
def QueryRes.repeatableBlocks : QueryRes → Option (List (List Tuple))
  | .fromSource bs => some bs
  | .materialized _ => none

/-- Embedding of `QueryNode::execute_query`.  The source matches on
`(self.query, *self.children)` with arms for `(Source, None)`,
`(InnerJoin, Two)` and `(CrossProduct, Two)` only; every other operation —
including a well-formed `Selection` with one child and a `Projection` —
falls into the `_ => panic!("Invalid query")` arm, modelled as `none`.
The cross-product arm is the block-nested loop: when the right result is
repeatable, iterate left blocks outermost, restart the right block stream
per left block, and push `left_tuple + right_tuple` pairs; otherwise loop
the materialized right side per left tuple. -/
def executeQuery : QNode → Option QueryRes
  | .source bs => some (.fromSource bs)
  | .crossProduct l r =>
      match executeQuery l, executeQuery r with
      | some lr, some rr =>
          match rr.repeatableBlocks with
          | some rbs =>
              some (.materialized (lr.blocks.flatMap fun leftBlock =>
                rbs.flatMap fun rightBlock =>
                  leftBlock.flatMap fun leftTuple =>
                    rightBlock.map fun rightTuple => leftTuple ++ rightTuple))
          | none =>
              some (.materialized (lr.tuples.flatMap fun leftTuple =>
                rr.tuples.map fun rightTuple => leftTuple ++ rightTuple))
      | _, _ => none
  | _ => none

/-! ## Exact model of the `f64` selectivity arithmetic

The selectivity estimator computes with `f64`.  The embedding carries the
value exactly: a finite rational, one of the two infinities, or NaN.  All
IEEE special cases produced by the estimator (division by zero, subtraction
from infinity, multiplication and addition with infinities) follow the IEEE
rules; rounding of finite results is not modelled (every concrete input used
in a theorem below keeps the values dyadic, where `f64` is exact). -/

/-- Exact f64 value: finite rational, infinities, or NaN. -/
inductive F where
  | finite (q : ℚ)
  | posInf
  | negInf
  | nan
deriving DecidableEq, Repr

/-- IEEE division, restricted to the shapes the estimator produces
(`1.0 / (max_tuples as f64)`: finite over finite). -/
def F.div : F → F → F
  | .finite a, .finite b =>
      if b = 0 then
        if a = 0 then .nan else if 0 < a then .posInf else .negInf
      else .finite (a / b)
  | .nan, _ => .nan
  | _, .nan => .nan
  | .finite _, .posInf => .finite 0
  | .finite _, .negInf => .finite 0
  | .posInf, .finite b => if 0 ≤ b then .posInf else .negInf
  | .negInf, .finite b => if 0 ≤ b then .negInf else .posInf
  | _, _ => .nan

/-- IEEE subtraction. -/
def F.sub : F → F → F
  | .finite a, .finite b => .finite (a - b)
  | .nan, _ => .nan
  | _, .nan => .nan
  | .finite _, .posInf => .negInf
  | .finite _, .negInf => .posInf
  | .posInf, .finite _ => .posInf
  | .negInf, .finite _ => .negInf
  | .posInf, .negInf => .posInf
  | .negInf, .posInf => .negInf
  | .posInf, .posInf => .nan
  | .negInf, .negInf => .nan

/-- IEEE addition. -/
def F.add : F → F → F
  | .finite a, .finite b => .finite (a + b)
  | .nan, _ => .nan
  | _, .nan => .nan
  | .finite _, .posInf => .posInf
  | .finite _, .negInf => .negInf
  | .posInf, .finite _ => .posInf
  | .negInf, .finite _ => .negInf
  | .posInf, .posInf => .posInf
  | .negInf, .negInf => .negInf
  | .posInf, .negInf => .nan
  | .negInf, .posInf => .nan

/-- IEEE multiplication. -/
def F.mul : F → F → F
  | .finite a, .finite b => .finite (a * b)
  | .nan, _ => .nan
  | _, .nan => .nan
  | .finite a, .posInf => if a = 0 then .nan else if 0 < a then .posInf else .negInf
  | .posInf, .finite a => if a = 0 then .nan else if 0 < a then .posInf else .negInf
  | .finite a, .negInf => if a = 0 then .nan else if 0 < a then .negInf else .posInf
  | .negInf, .finite a => if a = 0 then .nan else if 0 < a then .negInf else .posInf
  | .posInf, .posInf => .posInf
  | .negInf, .negInf => .posInf
  | .posInf, .negInf => .negInf
  | .negInf, .posInf => .negInf

/-- Minimum.  The source calls `std::cmp::min` on two `f64` values (which
has no `Ord` instance; the written intent is the numeric minimum).  NaN is
handled as `f64::min` would: the non-NaN operand wins. -/
def F.fmin : F → F → F
  | .finite a, .finite b => .finite (min a b)
  | .nan, x => x
  | x, .nan => x
  | .negInf, _ => .negInf
  | _, .negInf => .negInf
  | .posInf, x => x
  | x, .posInf => x

/-- usize::MAX on the 64-bit targets the tests run on. -/
def USIZE_MAX : ℕ := 2 ^ 64 - 1

/-- Embedding of Rust `as usize` applied to an `f64`: truncate toward zero
and saturate to `[0, usize::MAX]`; NaN casts to 0.  For a positive value
truncation toward zero is the floor. -/
def F.toUsize : F → ℕ
  | .finite q => if q ≤ 0 then 0 else min ⌊q⌋₊ USIZE_MAX
  | .posInf => USIZE_MAX
  | .negInf => 0
  | .nan => 0

/-- Embedding of `ConditionOperation::selectivity`: `Equals` is
`1.0 / max_tuples as f64`, `Nequals` is `1.0 - 1.0 / max_tuples`, `And` is
the product of the parts, `Or` is `min(sum, 1.0)`.  `Condition::selectivity`
delegates to the operation. -/
def ConditionOperation.selectivity : ConditionOperation → ℕ → F
  | .equals _, n => F.div (.finite 1) (.finite n)
  | .nequals _, n => F.sub (.finite 1) (F.div (.finite 1) (.finite n))
  | .and c (.mk _ rop), n => F.mul (c.selectivity n) (rop.selectivity n)
  | .or c (.mk _ rop), n =>
      F.fmin (F.add (c.selectivity n) (rop.selectivity n)) (.finite 1)

/-- Embedding of `Condition::selectivity`. -/
def Condition.selectivity (c : Condition) (n : ℕ) : F :=
  c.operation.selectivity n

/-- The selectivity formulas exactly as the spec words them (real-number
reading over ℚ); meaningful for `n_child > 0`. -/
def specSelectivityOp : ConditionOperation → ℕ → ℚ
  | .equals _, n => 1 / n
  | .nequals _, n => 1 - 1 / n
  | .and c (.mk _ rop), n => specSelectivityOp c n * specSelectivityOp rop n
  | .or c (.mk _ rop), n => min (specSelectivityOp c n + specSelectivityOp rop n) 1

/-- Embedding of `approximate_created_tuples` on the embedded operator
fragment: a source reports its relation length (the sum of its block
lengths), projection passes through, selection returns
`c.selectivity(child_estimate) as usize` — the bare selectivity cast to
`usize`, not multiplied by the child estimate — and cross product
multiplies.  (usize overflow of the product does not occur in any input
considered here.) -/
def QNode.approximateCreatedTuples : QNode → ℕ
  | .source bs => (bs.map List.length).sum
  | .projection _ child => child.approximateCreatedTuples
  | .selection c child =>
      (c.selectivity child.approximateCreatedTuples).toUsize
  | .crossProduct l r =>
      l.approximateCreatedTuples * r.approximateCreatedTuples

/-! ## The AND-splitting pass (`Optimizer::split_all_ands`) -/

/-- Whether a condition's operation has `And` at the top. -/
def Condition.topAnd : Condition → Bool
  | .mk _ (.and _ _) => true
  | _ => false

/-- Worker for the conjunct count, recursing on the operation. -/
def conjunctCountAux : ConditionOperation → ℕ
  | .and inner (.mk _ nextOp) => conjunctCountAux inner + conjunctCountAux nextOp
  | _ => 1

/-- Number of conjuncts of a condition through arbitrarily nested `And`
nodes (spec side: `c1 ∧ c2 ∧ … ∧ cn` has n conjuncts). -/
def conjunctCount : Condition → ℕ
  | .mk _ op => conjunctCountAux op

/-- Embedding of `Optimizer::split_all_ands`.  When a selection's condition
splits into more than one conjunct, the source replaces the node in place by
the chain `select c_n (select c_{n-1} (… (select c_1 child)))` built by
folding `select_on_condition` over the split list, and then recurses into
the children of the replaced node; because every element of a `split_and`
result has no `And` at the top (see `splitAnd_no_topAnd`), that recursion
walks the fresh chain without further replacement until it reaches the
original child, which is what the direct recursion below computes. -/
def splitAllAnds : QNode → QNode
  | .selection cond child =>
      let parts := cond.splitAnd
      if 1 < parts.length then
        parts.foldl (fun acc c => QNode.selection c acc) (splitAllAnds child)
      else
        .selection cond (splitAllAnds child)
  | .projection f child => .projection f (splitAllAnds child)
  | .crossProduct l r => .crossProduct (splitAllAnds l) (splitAllAnds r)
  | .source bs => .source bs

/-- No selection node in the tree carries a condition with `And` at the
top. -/
def QNode.noSelectionTopAnd : QNode → Bool
  | .source _ => true
  | .projection _ c => c.noSelectionTopAnd
  | .selection cond c => (!cond.topAnd) && c.noSelectionTopAnd
  | .crossProduct l r => l.noSelectionTopAnd && r.noSelectionTopAnd

/-! ## Extendible hashing (`tuple_storage/extendible_hashing.rs`)

The `BlockDirectory` state machine, parametrized by the tuple type `τ` and
the deterministic primary-key hash `hashT` (in the source,
`hash_tuple`/`PrimaryKey::hash` computed from the key definition's seeds;
in particular `hashT = id` for a single-column unsigned key).  `BigUint`
hashes are `Nat`.  Blocks carry their `(hash, tuple)` vectors in memory:
the file backing and locking are identity on contents and are not modelled.
Panics (`unwrap` on a missing directory key, out-of-range indexing, the
overfull-bucket check) and non-termination of the recursive insert are
modelled by `Option`, with explicit fuel for the recursion. -/

/-- Bucket: local depth plus the owned block's `(hash, tuple)` entries in
insertion order.  (The source's derived `mask` field is
`2^local_depth − 1` and is recomputed here where used.) -/
structure Bucket (τ : Type) where
  localDepth : ℕ
  contents : List (ℕ × τ)

/-- The block directory state: the configured bucket capacity, the global
depth, the `directory key → bucket index` mapping (an association list
with distinct keys, standing for the `HashMap`), and the bucket vector. -/
structure BlockDirectory (τ : Type) where
  hashT : τ → ℕ
  bucketSize : ℕ
  globalDepth : ℕ
  directories : List (ℕ × ℕ)
  buckets : List (Bucket τ)

/-- The iterative `mask` function: `depth` rounds of `ret <<= 1; ret |= 1`,
producing `2^depth − 1`. -/
def maskIter : ℕ → ℕ
  | 0 => 0
  | d + 1 => 2 * maskIter d + 1

/-- HashMap lookup on the association list (keys are kept distinct). -/
def lookupKey : List (ℕ × ℕ) → ℕ → Option ℕ
  | [], _ => none
  | (k, v) :: rest, key => if k = key then some v else lookupKey rest key

/-- `BlockContents::insert_tuple`: replace the tuple of the first entry
with an equal hash and return the displaced tuple, else append. -/
def blockInsert {τ : Type} : List (ℕ × τ) → ℕ → τ → Option τ × List (ℕ × τ)
  | [], h, t => (none, [(h, t)])
  | (h2, t2) :: rest, h, t =>
      if h2 = h then (some t2, (h2, t) :: rest)
      else
        let r := blockInsert rest h t
        (r.1, (h2, t2) :: r.2)

/-- The empty directory produced by `BlockDirectory::new`: global depth 1,
no registered directory keys, no buckets. -/
def initDirectory {τ : Type} (hashT : τ → ℕ) (bucketSize : ℕ) :
    BlockDirectory τ :=
  ⟨hashT, bucketSize, 1, [], []⟩

/-- `get_bucket_from_directory`: look the key up; when absent, create a
fresh bucket with local depth 1 (`create_new_bucket(1)`) and register the
key to it.  Returns the bucket index together with the updated state. -/
def getBucketFromDirectory {τ : Type} (st : BlockDirectory τ) (dir : ℕ) :
    ℕ × BlockDirectory τ :=
  match lookupKey st.directories dir with
  | some i => (i, st)
  | none =>
      (st.buckets.length,
        { st with
          buckets := st.buckets ++ [⟨1, []⟩],
          directories := st.directories ++ [(dir, st.buckets.length)] })

/-- `expand_directory`: rebuild the mapping with every entry duplicated
under `key` and `key | (1 << global_depth)`, then increment the global
depth (the mask is regenerated from it). -/
def expandDirectory {τ : Type} (st : BlockDirectory τ) : BlockDirectory τ :=
  { st with
    directories := st.directories.flatMap fun p =>
      [(p.1, p.2), (p.1 ||| (1 <<< st.globalDepth), p.2)],
    globalDepth := st.globalDepth + 1 }

/-- The redistribution loop at the end of `split_bucket`: re-hash each
drained tuple, look its directory key up under the current mask
(`unwrap` panic when absent, modelled as `none`), and insert it into that
bucket's block. -/
def redistribute {τ : Type} (st : BlockDirectory τ) :
    List τ → Option (BlockDirectory τ)
  | [] => some st
  | t :: rest =>
      let h := st.hashT t
      let dir := h &&& maskIter st.globalDepth
      match lookupKey st.directories dir with
      | none => none
      | some bi =>
          match st.buckets[bi]? with
          | none => none
          | some b =>
              let b2 : Bucket τ := { b with contents := (blockInsert b.contents h t).2 }
              redistribute { st with buckets := st.buckets.set bi b2 } rest

/-- The body of `split_bucket` after the conditional directory expansion:
increment the bucket's local depth to `d`; drain its tuples (`take_all`
keeps only the tuples); allocate a fresh empty bucket with local depth
`d`; reassign to it every directory key whose low `d` bits equal the old
prefix with the new deciding bit set and that mapped to the split bucket;
then redistribute the drained tuples. -/
def splitCore {τ : Type} (st : BlockDirectory τ) (bucketIndex : ℕ)
    (directoryNumber : ℕ) : Option (BlockDirectory τ) :=
  match st.buckets[bucketIndex]? with
  | none => none
  | some b1 =>
      let d := b1.localDepth + 1
      let tuples := b1.contents.map Prod.snd
      let st2 := { st with
        buckets := st.buckets.set bucketIndex (⟨d, []⟩ : Bucket τ) }
      let newIndex := st2.buckets.length
      let st3 := { st2 with
        buckets := st2.buckets ++ [(⟨d, []⟩ : Bucket τ)] }
      let originalRealCheck := directoryNumber &&& maskIter (d - 1)
      let higher := originalRealCheck ||| (1 <<< (d - 1))
      let st4 := { st3 with
        directories := st3.directories.map fun p =>
          if p.1 &&& maskIter d = higher ∧ p.2 = bucketIndex
          then (p.1, newIndex) else p }
      redistribute st4 tuples

/-- `split_bucket`: expand the directory when the split bucket sits at
global depth, then run the core splitting steps (the buckets are not
touched by the expansion, so re-reading the bucket inside the core is the
source's own second read of the same bucket). -/
def splitBucket {τ : Type} (st : BlockDirectory τ) (bucketIndex : ℕ)
    (directoryNumber : ℕ) : Option (BlockDirectory τ) :=
  match st.buckets[bucketIndex]? with
  | none => none
  | some b0 =>
      splitCore (if b0.localDepth = st.globalDepth then expandDirectory st else st)
        bucketIndex directoryNumber

/-- `BlockDirectory::insert`, with fuel for the split-and-retry recursion:
compute the directory key under the current mask, get (or create) the
bucket, split and retry when it is exactly full, otherwise insert into its
block and return the displaced tuple; the source then panics when a fresh
insert overfills the bucket. -/
def insertHash {τ : Type} (st : BlockDirectory τ) (t : τ) (fullHash : ℕ) :
    ℕ → Option (Option τ × BlockDirectory τ)
  | 0 => none
  | fuel + 1 =>
      let directoryNumber := fullHash &&& maskIter st.globalDepth
      let pr := getBucketFromDirectory st directoryNumber
      match pr.2.buckets[pr.1]? with
      | none => none
      | some b =>
          if b.contents.length = pr.2.bucketSize then
            match lookupKey pr.2.directories directoryNumber with
            | none => none
            | some bucketNum =>
                match splitBucket pr.2 bucketNum directoryNumber with
                | none => none
                | some st2 => insertHash st2 t fullHash fuel
          else
            let ins := blockInsert b.contents fullHash t
            let st2 := { pr.2 with
              buckets := pr.2.buckets.set pr.1 { b with contents := ins.2 } }
            if ins.1.isNone ∧ pr.2.bucketSize < ins.2.length then none
            else some (ins.1, st2)

/-- `TupleStorage::insert`: hash the tuple with the primary-key definition
and delegate; the `InsertionResult` is always `Ok`. -/
def storageInsert {τ : Type} (st : BlockDirectory τ) (t : τ) (fuel : ℕ) :
    Option (Option τ × BlockDirectory τ) :=
  insertHash st t (st.hashT t) fuel

/-- `Relation::insert`: delegates to the storage and DISCARDS the returned
`Option<Tuple>` — its own return type is unit. -/
def relationInsert {τ : Type} (st : BlockDirectory τ) (t : τ) (fuel : ℕ) :
    Option (Unit × BlockDirectory τ) :=
  (storageInsert st t fuel).map fun r => ((), r.2)

/-- All `(hash, tuple)` pairs stored across the directory's blocks. -/
def storedPairs {τ : Type} (st : BlockDirectory τ) : List (ℕ × τ) :=
  st.buckets.flatMap Bucket.contents

/-- States reachable from a fresh directory by successful inserts. -/
inductive Reachable {τ : Type} : BlockDirectory τ → Prop where
  | init (hashT : τ → ℕ) (bucketSize : ℕ) :
      Reachable (initDirectory hashT bucketSize)
  | step {st st2 : BlockDirectory τ} {t : τ} {res : Option τ} {fuel : ℕ} :
      Reachable st → storageInsert st t fuel = some (res, st2) →
      Reachable st2

/-- The internal well-formedness of a directory state: positive global
depth; distinct registered keys, all below `2^global_depth`; bucket
indices in range; bucket local depths in `[1, global_depth]`; all keys of
one bucket agree on its low `local_depth` bits; stored hashes are the
hashes of their tuples and are distinct within a block; and every stored
pair is found by looking up its own directory key. -/
structure DirInv {τ : Type} (st : BlockDirectory τ) : Prop where
  gpos : 1 ≤ st.globalDepth
  keysNodup : (st.directories.map Prod.fst).Nodup
  keysLt : ∀ p ∈ st.directories, p.1 < 2 ^ st.globalDepth
  valsLt : ∀ p ∈ st.directories, p.2 < st.buckets.length
  localLe : ∀ b ∈ st.buckets, b.localDepth ≤ st.globalDepth
  keysCoherent : ∀ p ∈ st.directories, ∀ q ∈ st.directories, p.2 = q.2 →
      ∀ b, st.buckets[p.2]? = some b →
      p.1 % 2 ^ b.localDepth = q.1 % 2 ^ b.localDepth
  hashStored : ∀ b ∈ st.buckets, ∀ e ∈ b.contents, e.1 = st.hashT e.2
  hashesNodup : ∀ b ∈ st.buckets, (b.contents.map Prod.fst).Nodup
  findable : ∀ i, ∀ b, st.buckets[i]? = some b → ∀ e ∈ b.contents,
      lookupKey st.directories (e.1 % 2 ^ st.globalDepth) = some i

/-! ## Concrete example inputs used by witnesses and counterexamples -/

/-- Helper: a single-column primary key holding the unsigned 64-bit value
`n`, with the seeds produced by `PrimaryKeyDefinition::new(vec![0])`. -/
def pkULong (n : ℕ) : PrimaryKey :=
  ⟨[.numeric (.unsigned (.long n))], [0, 0, 0, 0]⟩

/-- The field identifier used in the relation of the spec scenarios. -/
def fieldId : Identifier := .base "field1"

/-- A source node over a relation with exactly two `u64` rows (one block). -/
def src2 : QNode :=
  .source [[[Value.numeric (.unsigned (.long 0))],
            [Value.numeric (.unsigned (.long 1))]]]

/-- Condition `field1 = 1 ∧ field1 = 2` (a two-conjunct conjunction). -/
def condEqEq : Condition :=
  .mk fieldId (.and (.equals (.unsignedNumber 1))
    (.mk fieldId (.equals (.unsignedNumber 2))))

/-- A `BlockDirectory` over `ℕ`-tuples hashed by the identity (a
single-column unsigned key hashes to its own value), bucket size 4, after
inserting the tuple `0`: one registered directory key, global depth 1. -/
def stC3 : BlockDirectory ℕ := ⟨fun t => t, 4, 1, [(0, 0)], [⟨1, [(0, 0)]⟩]⟩

/-- Identity-hash directory of bucket size 1 after inserting `0`. -/
def stA : BlockDirectory ℕ := ⟨fun t => t, 1, 1, [(0, 0)], [⟨1, [(0, 0)]⟩]⟩

/-- `stA` after inserting `2`: the full bucket splits, the directory
expands to global depth 2 and the key `2` moves to the new bucket. -/
def stB : BlockDirectory ℕ :=
  ⟨fun t => t, 1, 2, [(0, 0), (2, 1)], [⟨2, [(0, 0)]⟩, ⟨2, [(2, 2)]⟩]⟩

/-- A constant-hash directory (every tuple collides) of bucket size 4
after inserting the tuple `5`. -/
def stMid : BlockDirectory ℕ := ⟨fun _ => 0, 4, 1, [(0, 0)], [⟨1, [(0, 5)]⟩]⟩

/-- `stMid` after inserting `7`, which displaces the tuple `5`. -/
def stMid2 : BlockDirectory ℕ := ⟨fun _ => 0, 4, 1, [(0, 0)], [⟨1, [(0, 7)]⟩]⟩

/-! ## Lemmas about splitAnd and selectivity -/

/-- split_and never produces the empty list. -/
theorem splitAndAux_ne_nil (b : Identifier) (op : ConditionOperation) :
    splitAndAux b op ≠ [] := by
  induction b, op using splitAndAux.induct with
  | case1 b inner b2 nextOp ih1 ih2 =>
    rw [splitAndAux]
    simp [ih1]
  | case2 b op h =>
    rw [splitAndAux]
    · simp
    · exact h

/-- Every element of a split_and result has no `And` at the top. -/
theorem splitAnd_no_topAnd (c : Condition) :
    ∀ x ∈ c.splitAnd, x.topAnd = false := by
  cases c with
  | mk b op =>
    rw [Condition.splitAnd]
    induction b, op using splitAndAux.induct with
    | case1 b inner b2 nextOp ih1 ih2 =>
      rw [splitAndAux]
      intro x hx
      rcases List.mem_append.mp hx with h | h
      · exact ih1 x h
      · exact ih2 x h
    | case2 b op h =>
      rw [splitAndAux]
      · intro x hx
        rcases List.mem_singleton.mp hx with rfl
        cases op with
        | equals o => rfl
        | nequals o => rfl
        | and inner next =>
          cases next with
          | mk b2 nextOp => exact absurd rfl (h inner b2 nextOp)
        | or inner next => rfl
      · exact h

/-- A condition whose top is `And` splits into at least two conjuncts. -/
theorem two_le_splitAnd_length_of_topAnd (c : Condition) (h : c.topAnd = true) :
    2 ≤ c.splitAnd.length := by
  cases c with
  | mk b op =>
    cases op with
    | equals o => simp [Condition.topAnd] at h
    | nequals o => simp [Condition.topAnd] at h
    | or inner next => simp [Condition.topAnd] at h
    | and inner next =>
      cases next with
      | mk b2 nextOp =>
        rw [Condition.splitAnd, splitAndAux, List.length_append]
        have l1 := List.length_pos.mpr (splitAndAux_ne_nil b inner)
        have l2 := List.length_pos.mpr (splitAndAux_ne_nil b2 nextOp)
        omega

/-- The number of split conjuncts equals the conjunct count of the nested
`And` tree. -/
theorem splitAnd_length (c : Condition) :
    c.splitAnd.length = conjunctCount c := by
  cases c with
  | mk b op =>
    rw [Condition.splitAnd, conjunctCount]
    induction b, op using splitAndAux.induct with
    | case1 b inner b2 nextOp ih1 ih2 =>
      rw [splitAndAux, conjunctCountAux]
      simp [ih1, ih2]
    | case2 b op h =>
      rw [splitAndAux, conjunctCountAux]
      · rfl
      · exact h
      · exact h

/-- A condition that splits into a single conjunct splits into itself. -/
theorem splitAnd_eq_self_of_not_lt (c : Condition)
    (h : ¬ 1 < c.splitAnd.length) : c.splitAnd = [c] := by
  have htop : c.topAnd = false := by
    by_contra hcon
    have := two_le_splitAnd_length_of_topAnd c (by simpa using hcon)
    omega
  cases c with
  | mk b op =>
    cases op with
    | equals o => rw [Condition.splitAnd, splitAndAux]; simp
    | nequals o => rw [Condition.splitAnd, splitAndAux]; simp
    | and inner next => simp [Condition.topAnd] at htop
    | or inner next => rw [Condition.splitAnd, splitAndAux]; simp

/-- On a positive tuple count the code's f64 selectivity is exactly the
finite rational given by the spec formulas. -/
theorem selectivity_finite_of_pos (op : ConditionOperation) (n : ℕ) :
    0 < n → op.selectivity n = F.finite (specSelectivityOp op n) := by
  induction op, n using ConditionOperation.selectivity.induct with
  | case1 o n =>
    intro h
    have hn : ((n : ℚ)) ≠ 0 := Nat.cast_ne_zero.mpr h.ne'
    simp [ConditionOperation.selectivity, specSelectivityOp, F.div, hn]
  | case2 o n =>
    intro h
    have hn : ((n : ℚ)) ≠ 0 := Nat.cast_ne_zero.mpr h.ne'
    simp [ConditionOperation.selectivity, specSelectivityOp, F.div, F.sub, hn]
  | case3 c base rop n ih1 ih2 =>
    intro h
    simp [ConditionOperation.selectivity, specSelectivityOp, ih1 h, ih2 h, F.mul]
  | case4 c base rop n ih1 ih2 =>
    intro h
    simp [ConditionOperation.selectivity, specSelectivityOp, ih1 h, ih2 h,
      F.add, F.fmin]

/-! ## Theorems for C8 -/

/-- Helper: the digit parser distributes over append. -/
theorem parseDigitsAux_append (xs ys : List Char) (acc : ℕ) :
    parseDigitsAux (xs ++ ys) acc
      = (parseDigitsAux xs acc).bind fun a => parseDigitsAux ys a := by
  induction xs generalizing acc with
  | nil => rfl
  | cons c rest ih =>
    rw [List.cons_append, parseDigitsAux, parseDigitsAux]
    cases digitVal c with
    | some d => exact ih (10 * acc + d)
    | none => rfl

/-- Helper: parsing the digit character of `d < 10` gives `d` back. -/
theorem digitVal_digitChar (d : ℕ) (h : d < 10) :
    digitVal (digitChar d) = some d := by
  interval_cases d <;> decide

/-- Helper: digit characters are plain field content: not a quote, not a
backslash, not a separator, not a sign, not whitespace. -/
theorem digitChar_plain (d : ℕ) (h : d < 10) :
    digitChar d ≠ '\"' ∧ digitChar d ≠ '\\' ∧ digitChar d ≠ '|'
      ∧ digitChar d ≠ '+' ∧ digitChar d ≠ '-'
      ∧ isWhitespaceChar (digitChar d) = false := by
  interval_cases d <;> decide

/-- Helper: parsing the reversed digit-character list rebuilds the
number. -/
theorem parseDigitsAux_reverse_digits (l : List ℕ) (hl : ∀ d ∈ l, d < 10)
    (acc : ℕ) :
    parseDigitsAux ((l.map digitChar).reverse) acc
      = some (acc * 10 ^ l.length + Nat.ofDigits 10 l) := by
  induction l generalizing acc with
  | nil => simp [parseDigitsAux, Nat.ofDigits_nil]
  | cons d ds ih =>
    have hd : d < 10 := hl d (List.mem_cons_self d ds)
    rw [List.map_cons, List.reverse_cons, parseDigitsAux_append,
      ih (fun x hx => hl x (List.mem_cons_of_mem _ hx))]
    rw [Option.some_bind]
    rw [show parseDigitsAux [digitChar d] (acc * 10 ^ ds.length + Nat.ofDigits 10 ds)
        = (match digitVal (digitChar d) with
           | some e => parseDigitsAux [] (10 * (acc * 10 ^ ds.length + Nat.ofDigits 10 ds) + e)
           | none => none) from rfl]
    rw [digitVal_digitChar d hd]
    show some _ = _
    congr 1
    rw [Nat.ofDigits_cons, List.length_cons, pow_succ]
    ring

/-- Helper: the serialized digits of `n` are nonempty. -/
theorem natSerialize_ne_nil (n : ℕ) : natSerialize n ≠ [] := by
  rw [natSerialize]
  by_cases h : n = 0
  · simp [h]
  · rw [if_neg h]
    simp [Nat.digits_ne_nil_iff_ne_zero.mpr h]

/-- Helper: every character of a serialized unsigned integer is a digit
character of a digit. -/
theorem natSerialize_chars (n : ℕ) :
    ∀ c ∈ natSerialize n, ∃ d, d < 10 ∧ c = digitChar d := by
  intro c hc
  rw [natSerialize] at hc
  by_cases h : n = 0
  · rw [if_pos h] at hc
    rcases List.mem_singleton.mp hc with rfl
    exact ⟨0, by norm_num, rfl⟩
  · rw [if_neg h, List.mem_reverse] at hc
    rcases List.mem_map.mp hc with ⟨d, hd, rfl⟩
    exact ⟨d, Nat.digits_lt_base (by norm_num) hd, rfl⟩

/-- Helper: parsing the serialization of an unsigned integer yields it
back. -/
theorem parseDigits_natSerialize (n : ℕ) :
    parseDigits (natSerialize n) = some n := by
  by_cases h : n = 0
  · subst h
    decide
  · have hne := natSerialize_ne_nil n
    have haux : parseDigitsAux (natSerialize n) 0 = some n := by
      rw [natSerialize, if_neg h,
        parseDigitsAux_reverse_digits _ (fun d hd =>
          Nat.digits_lt_base (by norm_num) hd) 0]
      simp [Nat.ofDigits_digits]
    cases hcs : natSerialize n with
    | nil => exact absurd hcs hne
    | cons c rest =>
      rw [show parseDigits (c :: rest) = parseDigitsAux (c :: rest) 0 from rfl,
        ← hcs, haux]

/-- Helper: a list containing a non-whitespace character does not trim to
empty. -/
theorem all_ws_false_of_mem {ds : List Char} {c : Char} (hc : c ∈ ds)
    (hnw : isWhitespaceChar c = false) :
    ds.all isWhitespaceChar = false := by
  cases hall : ds.all isWhitespaceChar
  · rfl
  · have := List.all_eq_true.mp hall c hc
    rw [hnw] at this
    cases this

/-- Helper: a printable non-space character is not whitespace. -/
theorem isWS_false_of_printable {c : Char} (h32 : 32 ≤ c.toNat)
    (hne : c ≠ ' ') : isWhitespaceChar c = false := by
  rw [isWhitespaceChar]
  have ht : c ≠ '\t' := by rintro rfl; simp at h32
  have hn : c ≠ '\n' := by rintro rfl; simp at h32
  have hr : c ≠ '\r' := by rintro rfl; simp at h32
  simp [hne, ht, hn, hr]

/-- Helper: the tokenizer copies plain content (no quote, no backslash, no
unquoted separator) into the current field unchanged. -/
theorem tokenizeAux_plain (ds : List Char) (inQ : Bool)
    (h : ∀ c ∈ ds, c ≠ '\"' ∧ c ≠ '\\' ∧ (inQ = true ∨ c ≠ '|')) :
    ∀ (rest current : List Char) (accs : List (List Char)),
    tokenizeAux (ds ++ rest) inQ current accs
      = tokenizeAux rest inQ (current ++ ds) accs := by
  induction ds with
  | nil =>
    intro rest current accs
    simp
  | cons c cs ih =>
    intro rest current accs
    obtain ⟨h1, h2, h3⟩ := h c (List.mem_cons_self c cs)
    have hnp : ¬(c = '|' ∧ inQ = false) := by
      rintro ⟨rfl, hq⟩
      rcases h3 with h3 | h3
      · rw [h3] at hq; cases hq
      · exact h3 rfl
    rw [List.cons_append, tokenizeAux.eq_def]
    simp only [if_neg h1, if_neg h2, if_neg hnp]
    rw [ih (fun x hx => h x (List.mem_cons_of_mem _ hx)) rest (current ++ [c]) accs]
    rw [List.append_assoc]
    rfl

/-- Helper: an unquoted plain field with visible content tokenizes to the
single field. -/
theorem tokenize_unquoted_field (ds : List Char)
    (h : ∀ c ∈ ds, c ≠ '\"' ∧ c ≠ '\\' ∧ c ≠ '|')
    (hws : ds.all isWhitespaceChar = false) :
    tokenizeAux ds false [] [] = some [ds] := by
  have hp := tokenizeAux_plain ds false
    (fun c hc => ⟨(h c hc).1, (h c hc).2.1, Or.inr (h c hc).2.2⟩) [] [] []
  rw [List.append_nil] at hp
  rw [hp, tokenizeAux.eq_def]
  simp [hws]

/-- Helper: a quoted field whose content has no quote and no backslash and
visible content tokenizes to the bare content. -/
theorem tokenize_quoted_field (ds : List Char)
    (h : ∀ c ∈ ds, c ≠ '\"' ∧ c ≠ '\\')
    (hws : ds.all isWhitespaceChar = false) :
    tokenizeAux ('\"' :: (ds ++ ['\"'])) false [] [] = some [ds] := by
  rw [tokenizeAux.eq_def]
  simp only [if_pos rfl, Bool.not_false]
  rw [tokenizeAux_plain ds true
    (fun c hc => ⟨(h c hc).1, (h c hc).2, Or.inl rfl⟩) ['\"'] [] []]
  rw [tokenizeAux.eq_def]
  simp only [if_pos rfl, Bool.not_true]
  rw [tokenizeAux.eq_def]
  simp [hws]

/-- Helper: a serialized unsigned integer never starts with a sign. -/
theorem stripPlus_natSerialize (n : ℕ) :
    stripPlus (natSerialize n) = natSerialize n := by
  rw [stripPlus]
  cases hcs : natSerialize n with
  | nil => simp
  | cons c rest =>
    have hc : c ∈ natSerialize n := by rw [hcs]; exact List.mem_cons_self _ _
    rcases natSerialize_chars n c hc with ⟨d, hd, rfl⟩
    have hplus := (digitChar_plain d hd).2.2.2.1
    simp [hplus]

/-- Helper: unsigned round trip through `str::parse`. -/
theorem parseUnsigned_natSerialize (n maxVal : ℕ) (h : n ≤ maxVal) :
    parseUnsigned maxVal (natSerialize n) = some n := by
  rw [parseUnsigned, stripPlus_natSerialize, parseDigits_natSerialize]
  simp [h]

/-- Helper: signed round trip through `str::parse`. -/
theorem parseSigned_intSerialize (i minVal maxVal : ℤ) (hmin : minVal ≤ i)
    (hmax : i ≤ maxVal) :
    parseSigned minVal maxVal (intSerialize i) = some i := by
  rw [intSerialize]
  by_cases hneg : i < 0
  · rw [if_pos hneg, parseSigned, if_pos (by simp)]
    simp only [List.tail_cons]
    rw [parseDigits_natSerialize]
    rw [Option.some_bind]
    rw [if_pos (by constructor <;> omega)]
    congr 1
    omega
  · rw [if_neg hneg, parseSigned]
    have hne : (natSerialize i.toNat).head? ≠ some '-' := by
      cases hcs : natSerialize i.toNat with
      | nil => simp
      | cons c rest =>
        have hc : c ∈ natSerialize i.toNat := by
          rw [hcs]; exact List.mem_cons_self _ _
        rcases natSerialize_chars _ c hc with ⟨d, hd, rfl⟩
        have hminus := (digitChar_plain d hd).2.2.2.2.1
        simp [hminus]
    rw [if_neg hne, stripPlus_natSerialize, parseDigits_natSerialize]
    have htn : ((i.toNat : ℤ)) = i := Int.toNat_of_nonneg (not_lt.mp hneg)
    rw [Option.some_bind, if_pos (by constructor <;> omega)]
    rw [htn]

/-- Helper: a serialized unsigned integer is plain field content. -/
theorem natSerialize_plain (n : ℕ) :
    ∀ c ∈ natSerialize n, c ≠ '\"' ∧ c ≠ '\\' ∧ c ≠ '|' := by
  intro c hc
  rcases natSerialize_chars n c hc with ⟨d, hd, rfl⟩
  obtain ⟨p1, p2, p3, _⟩ := digitChar_plain d hd
  exact ⟨p1, p2, p3⟩

/-- Helper: a serialized unsigned integer has visible content. -/
theorem natSerialize_not_ws (n : ℕ) :
    (natSerialize n).all isWhitespaceChar = false := by
  cases hcs : natSerialize n with
  | nil => exact absurd hcs (natSerialize_ne_nil n)
  | cons c rest =>
    have hc : c ∈ natSerialize n := by rw [hcs]; exact List.mem_cons_self _ _
    rcases natSerialize_chars n c hc with ⟨d, hd, rfl⟩
    rw [← hcs]
    exact all_ws_false_of_mem hc (digitChar_plain d hd).2.2.2.2.2

/-- Helper: a serialized signed integer is plain field content. -/
theorem intSerialize_plain (i : ℤ) :
    ∀ c ∈ intSerialize i, c ≠ '\"' ∧ c ≠ '\\' ∧ c ≠ '|' := by
  intro c hc
  rw [intSerialize] at hc
  by_cases hneg : i < 0
  · rw [if_pos hneg] at hc
    rcases List.mem_cons.mp hc with rfl | hc
    · exact ⟨by decide, by decide, by decide⟩
    · exact natSerialize_plain _ c hc
  · rw [if_neg hneg] at hc
    exact natSerialize_plain _ c hc

/-- Helper: a serialized signed integer has visible content. -/
theorem intSerialize_not_ws (i : ℤ) :
    (intSerialize i).all isWhitespaceChar = false := by
  rw [intSerialize]
  by_cases hneg : i < 0
  · rw [if_pos hneg]
    exact all_ws_false_of_mem (List.mem_cons_self _ _) (by decide)
  · rw [if_neg hneg]
    exact natSerialize_not_ws _

/-- Helper: the serialization of a single value list is the single field. -/
theorem serializeValues_singleton (v : Value) :
    serializeValues [v] = serializeValue v := by
  simp [serializeValues, List.intercalate, List.intersperse]

/-- Helper: assembling the parse of a one-field, one-type line. -/
theorem parseUsingTypes_of_single (v : Value) (field : List Char)
    (htok : tokenizeAux (serializeValue v) false [] [] = some [field])
    (hp : parseByExample v field = some v) :
    parseUsingTypes (serializeValue v) [v] = some [v] := by
  rw [parseUsingTypes, htok]
  simp [parseTypesLoop, hp]

/-- Claim C8, counterexample: the claim asserts parse(serialize(v)) == v
for every Value, but serializing the empty string gives the two-character
line `""` whose only field trims to empty and is dropped by the tokenizer;
the one-field deficit is then silently accepted by the pairing loop (the
lone type is consumed by the failing `while let` match), so the parse
returns the EMPTY tuple `Ok(vec![])` instead of the original value. -/
theorem roundtrip_fails_on_empty_string :
    serializeValues [Value.text (.str "" none)] = ['\"', '\"']
      ∧ parseUsingTypes ['\"', '\"'] [Value.text (.str "" none)] = some []
      ∧ parseUsingTypes ['\"', '\"'] [Value.text (.str "" none)]
          ≠ some [Value.text (.str "" none)] := by
  refine ⟨rfl, rfl, ?_⟩
  intro hc
  rw [show parseUsingTypes ['\"', '\"'] [Value.text (.str "" none)] = some [] from rfl]
    at hc
  simp at hc

/-- Claim C8, amended: parse after serialize is the identity on the
embedded values whose textual form survives the codec: integers (within
their width, as every Rust payload is), booleans, and printable-ASCII
chars/strings free of `"` and `\` with visible content and within their own
length bound.  (The claim fails in general: the serializer never escapes,
`Binary`/`Blob` serialization is unimplemented, and an all-whitespace final
field is dropped by the tokenizer and the deficit silently swallowed by the
pairing loop, yielding a shorter tuple — see
`roundtrip_fails_on_empty_string`.) -/
theorem serialize_parse_roundtrip (v : Value) (h : roundTrippable v) :
    parseUsingTypes (serializeValues [v]) [v] = some [v] := by
  rw [serializeValues_singleton]
  cases v with
  | numeric nv =>
    cases nv with
    | unsigned uv =>
      cases uv with
      | byte n =>
        refine parseUsingTypes_of_single _ (natSerialize n)
          (tokenize_unquoted_field _ (natSerialize_plain n)
            (natSerialize_not_ws n)) ?_
        show (parseUnsigned 255 (natSerialize n)).map
            (fun m => Value.numeric (.unsigned (.byte m)))
          = some (Value.numeric (.unsigned (.byte n)))
        rw [parseUnsigned_natSerialize n 255 h]
        rfl
      | short n =>
        refine parseUsingTypes_of_single _ (natSerialize n)
          (tokenize_unquoted_field _ (natSerialize_plain n)
            (natSerialize_not_ws n)) ?_
        show (parseUnsigned 65535 (natSerialize n)).map
            (fun m => Value.numeric (.unsigned (.short m)))
          = some (Value.numeric (.unsigned (.short n)))
        rw [parseUnsigned_natSerialize n 65535 h]
        rfl
      | int n =>
        refine parseUsingTypes_of_single _ (natSerialize n)
          (tokenize_unquoted_field _ (natSerialize_plain n)
            (natSerialize_not_ws n)) ?_
        show (parseUnsigned (2 ^ 32 - 1) (natSerialize n)).map
            (fun m => Value.numeric (.unsigned (.int m)))
          = some (Value.numeric (.unsigned (.int n)))
        rw [parseUnsigned_natSerialize n (2 ^ 32 - 1) h]
        rfl
      | long n =>
        refine parseUsingTypes_of_single _ (natSerialize n)
          (tokenize_unquoted_field _ (natSerialize_plain n)
            (natSerialize_not_ws n)) ?_
        show (parseUnsigned (2 ^ 64 - 1) (natSerialize n)).map
            (fun m => Value.numeric (.unsigned (.long m)))
          = some (Value.numeric (.unsigned (.long n)))
        rw [parseUnsigned_natSerialize n (2 ^ 64 - 1) h]
        rfl
    | signed sv =>
      cases sv with
      | byte i =>
        refine parseUsingTypes_of_single _ (intSerialize i)
          (tokenize_unquoted_field _ (intSerialize_plain i)
            (intSerialize_not_ws i)) ?_
        show (parseSigned (-128) 127 (intSerialize i)).map
            (fun m => Value.numeric (.signed (.byte m)))
          = some (Value.numeric (.signed (.byte i)))
        rw [parseSigned_intSerialize i (-128) 127 h.1 h.2]
        rfl
      | short i =>
        refine parseUsingTypes_of_single _ (intSerialize i)
          (tokenize_unquoted_field _ (intSerialize_plain i)
            (intSerialize_not_ws i)) ?_
        show (parseSigned (-32768) 32767 (intSerialize i)).map
            (fun m => Value.numeric (.signed (.short m)))
          = some (Value.numeric (.signed (.short i)))
        rw [parseSigned_intSerialize i (-32768) 32767 h.1 h.2]
        rfl
      | int i =>
        refine parseUsingTypes_of_single _ (intSerialize i)
          (tokenize_unquoted_field _ (intSerialize_plain i)
            (intSerialize_not_ws i)) ?_
        show (parseSigned (-(2 ^ 31)) (2 ^ 31 - 1) (intSerialize i)).map
            (fun m => Value.numeric (.signed (.int m)))
          = some (Value.numeric (.signed (.int i)))
        rw [parseSigned_intSerialize i (-(2 ^ 31)) (2 ^ 31 - 1) h.1 h.2]
        rfl
      | long i =>
        refine parseUsingTypes_of_single _ (intSerialize i)
          (tokenize_unquoted_field _ (intSerialize_plain i)
            (intSerialize_not_ws i)) ?_
        show (parseSigned (-(2 ^ 63)) (2 ^ 63 - 1) (intSerialize i)).map
            (fun m => Value.numeric (.signed (.long m)))
          = some (Value.numeric (.signed (.long i)))
        rw [parseSigned_intSerialize i (-(2 ^ 63)) (2 ^ 63 - 1) h.1 h.2]
        rfl
  | boolean b =>
    cases b with
    | true =>
      refine parseUsingTypes_of_single _ ("true".data)
        (tokenize_unquoted_field _ (by decide) (by decide)) (by decide)
    | false =>
      refine parseUsingTypes_of_single _ ("false".data)
        (tokenize_unquoted_field _ (by decide) (by decide)) (by decide)
  | text tv =>
    cases tv with
    | char c =>
      obtain ⟨h33, h126, hq, hb⟩ := h
      refine parseUsingTypes_of_single _ [c] ?_ ?_
      · have hws : ([c]).all isWhitespaceChar = false :=
          all_ws_false_of_mem (List.mem_singleton.mpr rfl)
            (isWS_false_of_printable (by omega)
              (by rintro rfl; simp at h33))
        exact tokenize_quoted_field [c]
          (by
            intro x hx
            rcases List.mem_singleton.mp hx with rfl
            exact ⟨hq, hb⟩) hws
      · rfl
    | str s bound =>
      obtain ⟨hall, ⟨cw, hcwmem, hcwne⟩, hbound⟩ := h
      refine parseUsingTypes_of_single _ s.data ?_ ?_
      · refine tokenize_quoted_field _
          (fun c hc => ⟨(hall c hc).2.2.1, (hall c hc).2.2.2⟩) ?_
        exact all_ws_false_of_mem hcwmem
          (isWS_false_of_printable (hall cw hcwmem).1 hcwne)
      · cases bound with
        | none =>
          show some (Value.text (.str (String.mk s.data) none))
            = some (Value.text (.str s none))
          rw [show String.mk s.data = s from by cases s; rfl]
        | some b =>
          have hlen : s.data.length ≤ b := hbound b rfl
          show (if b < s.data.length then none
            else some (Value.text (.str (String.mk s.data) (some b))))
            = some (Value.text (.str s (some b)))
          rw [if_neg (by omega), show String.mk s.data = s from by cases s; rfl]

/-- Claim C8, witness for the amended theorem at the concrete string of
the repository's own serialization test. -/
theorem serialize_parse_roundtrip_witness :
    parseUsingTypes (serializeValues [Value.text (.str "Hello World!" none)])
        [Value.text (.str "Hello World!" none)]
      = some [Value.text (.str "Hello World!" none)] :=
  serialize_parse_roundtrip _ (by
    show (∀ c ∈ "Hello World!".data,
          32 ≤ c.toNat ∧ c.toNat ≤ 126 ∧ c ≠ '\"' ∧ c ≠ '\\')
        ∧ (∃ c ∈ "Hello World!".data, c ≠ ' ')
        ∧ (∀ b, (none : Option ℕ) = some b → "Hello World!".data.length ≤ b)
    refine ⟨by decide, by decide, ?hb⟩
    intro b hb
    cases hb)

/-! ## Theorems for C5 and C6 -/

/-- Helper: a finite value below one casts to 0. -/
theorem toUsize_finite_of_lt_one {q : ℚ} (h : q < 1) :
    (F.finite q).toUsize = 0 := by
  simp only [F.toUsize]
  by_cases h0 : q ≤ 0
  · rw [if_pos h0]
  · rw [if_neg h0]
    simp [Nat.floor_eq_zero.mpr h]

/-- Helper: a chain of selections whose conditions all lack a top-level
`And`, over a clean base, is clean. -/
theorem foldl_selection_chain_noTopAnd (parts : List Condition) :
    ∀ base : QNode, (∀ c ∈ parts, c.topAnd = false) →
      base.noSelectionTopAnd = true →
      (parts.foldl (fun acc c => QNode.selection c acc) base).noSelectionTopAnd
        = true := by
  induction parts with
  | nil => exact fun base _ hbase => hbase
  | cons c cs ih =>
    intro base hparts hbase
    rw [List.foldl_cons]
    refine ih _ (fun x hx => hparts x (List.mem_cons_of_mem _ hx)) ?hb
    simp [QNode.noSelectionTopAnd, hbase, hparts c (List.mem_cons_self c cs)]

/-- After the AND-splitting pass no selection node in the tree carries a
condition with `And` at the top. -/
theorem splitAllAnds_noSelectionTopAnd (q : QNode) :
    (splitAllAnds q).noSelectionTopAnd = true := by
  induction q with
  | source bs => rfl
  | projection f child ih =>
    simpa [splitAllAnds, QNode.noSelectionTopAnd] using ih
  | selection cond child ih =>
    simp only [splitAllAnds]
    by_cases hlt : 1 < cond.splitAnd.length
    · simp only [hlt, if_true]
      exact foldl_selection_chain_noTopAnd _ _ (splitAnd_no_topAnd cond) ih
    · simp only [hlt, if_false]
      have htop : cond.topAnd = false := by
        by_contra hcon
        have := two_le_splitAnd_length_of_topAnd cond (by simpa using hcon)
        omega
      simp [QNode.noSelectionTopAnd, htop, ih]
  | crossProduct l r ihl ihr =>
    simp [splitAllAnds, QNode.noSelectionTopAnd, ihl, ihr]

/-- Claim C6, amended: the AND-splitting pass replaces a selection whose
condition splits into `n` conjuncts (through arbitrarily nested `And`
nodes) by a chain of `n` selections, each carrying one conjunct with no
`And` at its top, and afterwards no selection in the tree has an `And` at
the top of its condition.  (The original claim also asserted the estimated
cardinality is unchanged; `and_split_changes_estimate` refutes that part.) -/
theorem and_split_builds_singleton_chain (cond : Condition) (child : QNode) :
    splitAllAnds (QNode.selection cond child)
        = cond.splitAnd.foldl (fun acc c => QNode.selection c acc)
            (splitAllAnds child)
      ∧ cond.splitAnd.length = conjunctCount cond
      ∧ (∀ c ∈ cond.splitAnd, c.topAnd = false)
      ∧ (splitAllAnds (QNode.selection cond child)).noSelectionTopAnd = true := by
  refine ⟨?heq, splitAnd_length cond, splitAnd_no_topAnd cond,
    splitAllAnds_noSelectionTopAnd _⟩
  by_cases hlt : 1 < cond.splitAnd.length
  · simp [splitAllAnds, hlt]
  · rw [splitAnd_eq_self_of_not_lt cond hlt]
    simp [splitAllAnds, hlt]

/-- Claim C6, witness: the two-conjunct condition over the two-row source
is replaced by the two-element chain, and its first conjunct has no
top-level `And`. -/
theorem and_split_builds_singleton_chain_witness :
    splitAllAnds (QNode.selection condEqEq src2)
        = condEqEq.splitAnd.foldl (fun acc c => QNode.selection c acc)
            (splitAllAnds src2)
      ∧ (Condition.mk fieldId (.equals (.unsignedNumber 1))).topAnd = false := by
  obtain ⟨h1, _h2, h3, _h4⟩ := and_split_builds_singleton_chain condEqEq src2
  refine ⟨h1, h3 _ ?hm⟩
  rw [show condEqEq.splitAnd
      = [Condition.mk fieldId (.equals (.unsignedNumber 1)),
         Condition.mk fieldId (.equals (.unsignedNumber 2))] from rfl]
  exact List.mem_cons_self _ _

/-- Claim C6, counterexample to the estimate-preservation part: for
`field1 = 1 ∧ field1 = 2` over a two-row source the unsplit tree estimates
`(1/4) as usize = 0` tuples, while the split chain estimates the inner
selection at `(1/2) as usize = 0` and then the outer selection at
`(1/0) as usize = usize::MAX`, so the estimate changes. -/
theorem and_split_changes_estimate :
    (splitAllAnds (QNode.selection condEqEq src2)).approximateCreatedTuples
      ≠ (QNode.selection condEqEq src2).approximateCreatedTuples := by
  have htree : splitAllAnds (QNode.selection condEqEq src2)
      = QNode.selection (Condition.mk fieldId (.equals (.unsignedNumber 2)))
          (QNode.selection (Condition.mk fieldId (.equals (.unsignedNumber 1)))
            src2) := rfl
  have hinner : (QNode.selection
      (Condition.mk fieldId (.equals (.unsignedNumber 1)))
        src2).approximateCreatedTuples = 0 := by
    show (Condition.selectivity _ src2.approximateCreatedTuples).toUsize = 0
    rw [show src2.approximateCreatedTuples = 2 from rfl, Condition.selectivity,
      selectivity_finite_of_pos _ _ (by norm_num)]
    have hlt : specSelectivityOp (Condition.mk fieldId
        (.equals (.unsignedNumber 1))).operation 2 < 1 := by
      norm_num [Condition.operation, specSelectivityOp]
    exact toUsize_finite_of_lt_one hlt
  have houter : (QNode.selection
      (Condition.mk fieldId (.equals (.unsignedNumber 2)))
        (QNode.selection (Condition.mk fieldId (.equals (.unsignedNumber 1)))
          src2)).approximateCreatedTuples = USIZE_MAX := by
    show (Condition.selectivity _
      (QNode.selection _ src2).approximateCreatedTuples).toUsize = USIZE_MAX
    rw [hinner]
    have hdiv : Condition.selectivity
        (Condition.mk fieldId (.equals (.unsignedNumber 2))) 0 = F.posInf := by
      simp [Condition.selectivity, Condition.operation,
        ConditionOperation.selectivity, F.div]
    rw [hdiv]
    rfl
  have hright : (QNode.selection condEqEq src2).approximateCreatedTuples = 0 := by
    show (Condition.selectivity condEqEq src2.approximateCreatedTuples).toUsize = 0
    rw [show src2.approximateCreatedTuples = 2 from rfl, Condition.selectivity,
      selectivity_finite_of_pos _ _ (by norm_num)]
    have hlt : specSelectivityOp condEqEq.operation 2 < 1 := by
      norm_num [condEqEq, Condition.operation, specSelectivityOp]
    exact toUsize_finite_of_lt_one hlt
  rw [htree, houter, hright]
  norm_num [USIZE_MAX]

/-! ## Theorems for C1 and C7 -/

/-- Claim C1 (code bug): the spec requires a Selection root with one child
to return the filtered child result, but `execute_query` has no arm for
`(Selection, One(..))`: every selection node falls into the catch-all
`_ => panic!("Invalid query")`, modelled here as `none`. -/
theorem selection_execution_panics (cond : Condition) (child : QNode) :
    executeQuery (QNode.selection cond child) = none := rfl

/-- Helper: summing a constant over a list. -/
theorem sum_map_const_nat {α : Type} (l : List α) (c : ℕ) :
    (l.map fun _ => c).sum = l.length * c := by
  induction l with
  | nil => simp
  | cons x xs ih => simp [ih, Nat.succ_mul, Nat.add_comm]

/-- Helper: the two nestings of a double loop produce permutations of one
another. -/
theorem flatMap_comm_perm {α β γ : Type} (xs : List α) (ys : List β)
    (f : α → β → List γ) :
    (xs.flatMap fun x => ys.flatMap fun y => f x y).Perm
      (ys.flatMap fun y => xs.flatMap fun x => f x y) := by
  induction xs with
  | nil => simp
  | cons x xs ih =>
    simp only [List.flatMap_cons]
    refine List.Perm.trans (List.Perm.append_left _ ih) ?h
    exact List.flatMap_append_perm ys (fun y => f x y) (fun y => xs.flatMap fun x => f x y)

/-- Claim C7: executing a CrossProduct over two sources materializes, up to
the block-nested iteration order, exactly one concatenated tuple
`left ++ right` for every pair, hence `|L| * |R|` tuples in total. -/
theorem crossProduct_executes_all_concatenations (L R : List (List Tuple)) :
    ∃ ts : List Tuple,
      executeQuery (QNode.crossProduct (QNode.source L) (QNode.source R))
          = some (QueryRes.materialized ts)
        ∧ ts.Perm (L.flatten.flatMap fun lt => R.flatten.map fun rt => lt ++ rt)
        ∧ ts.length = L.flatten.length * R.flatten.length
        ∧ (∀ lt ∈ L.flatten, ∀ rt ∈ R.flatten, lt ++ rt ∈ ts)
        ∧ (∀ t ∈ ts, ∃ lt ∈ L.flatten, ∃ rt ∈ R.flatten, t = lt ++ rt) := by
  refine ⟨L.flatMap fun lb => R.flatMap fun rb =>
      lb.flatMap fun lt => rb.map fun rt => lt ++ rt, rfl, ?hperm⟩
  have hperm : (L.flatMap fun lb => R.flatMap fun rb =>
      lb.flatMap fun lt => rb.map fun rt => lt ++ rt).Perm
      (L.flatten.flatMap fun lt => R.flatten.map fun rt => lt ++ rt) := by
    rw [List.flatten_eq_flatMap, List.flatten_eq_flatMap, List.flatMap_assoc]
    refine List.Perm.flatMap_left L fun lb _ => ?hinner
    simp only [id]
    refine List.Perm.trans
      (flatMap_comm_perm R lb fun rb lt => rb.map fun rt => lt ++ rt) ?hrw
    refine List.Perm.flatMap_left lb fun lt _ => ?hmap
    rw [List.map_flatMap]
    simp only [id]
    exact List.Perm.refl _
  have hlen : (L.flatten.flatMap fun lt => R.flatten.map fun rt => lt ++ rt).length
      = L.flatten.length * R.flatten.length := by
    rw [List.length_flatMap]
    have : (List.map (List.length ∘ fun lt => R.flatten.map fun rt => lt ++ rt)
        L.flatten) = L.flatten.map fun _ => R.flatten.length := by
      simp [Function.comp_def]
    rw [this, sum_map_const_nat]
  refine ⟨hperm, hperm.length_eq.trans hlen, ?hmem, ?hsurj⟩
  case hmem =>
    intro lt hlt rt hrt
    refine hperm.mem_iff.mpr ?h
    exact List.mem_flatMap.mpr ⟨lt, hlt, List.mem_map.mpr ⟨rt, hrt, rfl⟩⟩
  case hsurj =>
    intro t ht
    have := hperm.mem_iff.mp ht
    rcases List.mem_flatMap.mp this with ⟨lt, hlt, hmap⟩
    rcases List.mem_map.mp hmap with ⟨rt, hrt, hrfl⟩
    exact ⟨lt, hlt, rt, hrt, hrfl.symm⟩

/-- Claim C7, witness: a concrete two-block left source and one-block right
source; the theorem yields the concatenated pair and the total count. -/
theorem crossProduct_executes_all_concatenations_witness :
    ∃ ts : List Tuple,
      executeQuery (QNode.crossProduct
          (QNode.source [[[Value.boolean true]], [[Value.boolean false]]])
          (QNode.source [[[Value.numeric (.unsigned (.long 7))]]]))
        = some (QueryRes.materialized ts)
      ∧ ([Value.boolean true] ++ [Value.numeric (.unsigned (.long 7))]) ∈ ts
      ∧ ts.length = 2 := by
  obtain ⟨ts, hexec, hperm, hlen, hmem, hsurj⟩ :=
    crossProduct_executes_all_concatenations
      [[[Value.boolean true]], [[Value.boolean false]]]
      [[[Value.numeric (.unsigned (.long 7))]]]
  refine ⟨ts, hexec, hmem _ (by decide) _ (by decide), ?hl⟩
  simpa using hlen

/-! ## Theorems for C9 and C10 -/

/-- Claim C9 (code bug): `PrimaryKey::eq` is claimed to compare both type and
value position by position, but the source builds `other_iter` from `self`,
so two keys of the same variant layout with different contained values still
compare equal.  The failing input: single-column keys holding `0u64` and
`1u64`. -/
theorem primaryKey_eq_ignores_values :
    PrimaryKey.eq (pkULong 0) (pkULong 1) = true ∧ pkULong 0 ≠ pkULong 1 := by
  decide

/-- Claim C10: the schema produced by the `projection` constructor lists
exactly the requested identifiers that occur in the child schema, in the
requested order; a requested identifier absent from the child schema is
silently omitted (no error path exists). -/
theorem projection_schema_filters_requested {τ : Type}
    (childRel : List (Identifier × τ)) (projections : List Identifier) :
    (projectionResultingRelation childRel projections).map Prod.fst
      = projections.filter fun id => decide (id ∈ childRel.map Prod.fst) := by
  induction projections with
  | nil => rfl
  | cons id rest ih =>
    simp only [projectionResultingRelation, List.filterMap_cons, List.filter_cons]
    cases hfind : childRel.find? (fun p => p.1 == id) with
    | none =>
      have hnot : id ∉ childRel.map Prod.fst := by
        intro hmem
        rcases List.mem_map.mp hmem with ⟨p, hp, hfst⟩
        have := List.find?_eq_none.mp hfind p hp
        simp [hfst] at this
      simp only [Option.map_none']
      rw [if_neg (by simpa using hnot)]
      exact ih
    | some p =>
      have hp := List.find?_some hfind
      have hpmem := List.mem_of_find?_eq_some hfind
      have hfst : p.1 = id := by simpa using hp
      have hmem : id ∈ childRel.map Prod.fst :=
        List.mem_map.mpr ⟨p, hpmem, hfst⟩
      simp only [Option.map_some']
      rw [if_pos (by simpa using hmem)]
      simp only [List.map_cons]
      exact congrArg (List.cons id) ih

/-! ## Theorems for C2, C3 and C4: the extendible-hashing state machine -/

/-! ### basic bit lemmas -/

theorem maskIter_eq (d : ℕ) : maskIter d = 2 ^ d - 1 := by
  induction d with
  | zero => simp [maskIter]
  | succ d ih =>
      have h1 : 1 ≤ 2 ^ d := Nat.one_le_two_pow
      simp [maskIter, ih, pow_succ]
      omega

theorem and_maskIter (x d : ℕ) : x &&& maskIter d = x % 2 ^ d := by
  rw [maskIter_eq, Nat.and_pow_two_sub_one_eq_mod]

theorem one_shiftLeft (g : ℕ) : (1 : ℕ) <<< g = 2 ^ g := by
  simp [Nat.shiftLeft_eq]

theorem lor_two_pow_of_lt {k g : ℕ} (h : k < 2 ^ g) : k ||| 2 ^ g = k + 2 ^ g := by
  apply Nat.eq_of_testBit_eq
  intro i
  rcases lt_trichotomy i g with hi | rfl | hi
  · rw [Nat.testBit_lor, Nat.testBit_two_pow, Nat.add_comm, Nat.testBit_two_pow_add_gt hi]
    simp [Nat.ne_of_gt hi]
  · rw [Nat.testBit_lor, Nat.testBit_two_pow, Nat.add_comm, Nat.testBit_two_pow_add_eq]
    simp [Nat.testBit_lt_two_pow h]
  · have h1 : Nat.testBit k i = false :=
      Nat.testBit_lt_two_pow (lt_of_lt_of_le h (Nat.pow_le_pow_right (by norm_num) hi.le))
    have h2 : k + 2 ^ g < 2 ^ i := by
      calc k + 2 ^ g < 2 ^ g + 2 ^ g := by omega
      _ = 2 ^ (g + 1) := by ring
      _ ≤ 2 ^ i := Nat.pow_le_pow_right (by norm_num) hi
    rw [Nat.testBit_lor, Nat.testBit_two_pow, h1, Nat.testBit_lt_two_pow h2]
    simp [Nat.ne_of_lt hi]

theorem mod_two_pow_succ_cases (x d : ℕ) :
    x % 2 ^ (d + 1) = x % 2 ^ d ∨ x % 2 ^ (d + 1) = x % 2 ^ d + 2 ^ d := by
  have hpos : 0 < 2 ^ d := Nat.pos_pow_of_pos d (by norm_num)
  have hmm : (x % 2 ^ (d + 1)) % 2 ^ d = x % 2 ^ d :=
    Nat.mod_mod_of_dvd x (pow_dvd_pow 2 (Nat.le_succ d))
  have hlt : x % 2 ^ (d + 1) < 2 ^ (d + 1) :=
    Nat.mod_lt x (Nat.pos_pow_of_pos _ (by norm_num))
  have h2 : (2:ℕ) ^ (d + 1) = 2 ^ d * 2 := by ring
  have hdm := Nat.div_add_mod (x % 2 ^ (d + 1)) (2 ^ d)
  have hq : x % 2 ^ (d + 1) / 2 ^ d < 2 := by
    rw [Nat.div_lt_iff_lt_mul hpos]
    calc x % 2 ^ (d + 1) < 2 ^ (d + 1) := hlt
    _ = 2 * 2 ^ d := by ring
  rw [hmm] at hdm
  revert hdm hq
  generalize x % 2 ^ (d + 1) / 2 ^ d = q
  generalize hK : x % 2 ^ (d + 1) = K
  intro hdm hq
  have hq2 : q = 0 ∨ q = 1 := by omega
  rcases hq2 with rfl | rfl
  · rw [Nat.mul_zero, Nat.zero_add] at hdm
    exact Or.inl hdm.symm
  · rw [Nat.mul_one] at hdm
    refine Or.inr ?_
    omega

/-! ### lookupKey lemmas -/

theorem lookupKey_mem {l : List (ℕ × ℕ)} {k v : ℕ} (h : lookupKey l k = some v) :
    (k, v) ∈ l := by
  induction l with
  | nil => simp [lookupKey] at h
  | cons p rest ih =>
      obtain ⟨k0, v0⟩ := p
      rw [lookupKey] at h
      by_cases hk : k0 = k
      · rw [if_pos hk] at h
        subst hk
        simp_all
      · rw [if_neg hk] at h
        exact List.mem_cons_of_mem _ (ih h)

theorem lookupKey_none {l : List (ℕ × ℕ)} {k : ℕ} (h : lookupKey l k = none) :
    k ∉ l.map Prod.fst := by
  induction l with
  | nil => simp
  | cons p rest ih =>
      obtain ⟨k0, v0⟩ := p
      rw [lookupKey] at h
      by_cases hk : k0 = k
      · rw [if_pos hk] at h
        exact absurd h (by simp)
      · rw [if_neg hk] at h
        simp only [List.map_cons, List.mem_cons]
        push_neg
        exact ⟨fun he => hk he.symm, ih h⟩

theorem lookupKey_isSome_of_mem {l : List (ℕ × ℕ)} {k v : ℕ} (h : (k, v) ∈ l) :
    ∃ w, lookupKey l k = some w := by
  induction l with
  | nil => simp at h
  | cons p rest ih =>
      obtain ⟨k0, v0⟩ := p
      rw [lookupKey]
      by_cases hk : k0 = k
      · exact ⟨v0, if_pos hk⟩
      · rw [if_neg hk]
        rcases List.mem_cons.mp h with he | hm
        · exact absurd (congrArg Prod.fst he.symm) hk
        · exact ih hm

theorem lookupKey_append_left {l l2 : List (ℕ × ℕ)} {k v : ℕ}
    (h : lookupKey l k = some v) : lookupKey (l ++ l2) k = some v := by
  induction l with
  | nil => simp [lookupKey] at h
  | cons p rest ih =>
      obtain ⟨k0, v0⟩ := p
      rw [lookupKey] at h
      rw [List.cons_append, lookupKey]
      by_cases hk : k0 = k
      · rwa [if_pos hk] at h ⊢
      · rw [if_neg hk] at h ⊢
        exact ih h

theorem lookupKey_append_of_none {l l2 : List (ℕ × ℕ)} {k : ℕ}
    (h : lookupKey l k = none) : lookupKey (l ++ l2) k = lookupKey l2 k := by
  induction l with
  | nil => simp
  | cons p rest ih =>
      obtain ⟨k0, v0⟩ := p
      rw [lookupKey] at h
      rw [List.cons_append, lookupKey]
      by_cases hk : k0 = k
      · rw [if_pos hk] at h
        exact absurd h (by simp)
      · rw [if_neg hk] at h ⊢
        exact ih h

/-! ### blockInsert lemmas -/

theorem blockInsert_keys {τ : Type} (l : List (ℕ × τ)) (h : ℕ) (t : τ) :
    ((blockInsert l h t).2).map Prod.fst =
      if h ∈ l.map Prod.fst then l.map Prod.fst else l.map Prod.fst ++ [h] := by
  induction l with
  | nil => simp [blockInsert]
  | cons p rest ih =>
      obtain ⟨h2, t2⟩ := p
      by_cases hh : h2 = h
      · subst hh
        simp [blockInsert]
      · simp only [blockInsert, if_neg hh, List.map_cons]
        by_cases hmem : h ∈ rest.map Prod.fst
        · rw [if_pos hmem] at ih
          have : h ∈ (h2, t2).1 :: rest.map Prod.fst := List.mem_cons_of_mem _ hmem
          simp only [List.map_cons, ih]
          rw [if_pos (List.mem_cons_of_mem _ hmem)]
        · rw [if_neg hmem] at ih
          have hnot : h ∉ h2 :: rest.map Prod.fst := by
            intro hc
            rcases List.mem_cons.mp hc with he | hm
            · exact hh he.symm
            · exact hmem hm
          simp only [List.map_cons, ih]
          rw [if_neg hnot]
          simp

theorem blockInsert_mem {τ : Type} {l : List (ℕ × τ)} {h : ℕ} {t : τ} {e : ℕ × τ}
    (he : e ∈ (blockInsert l h t).2) : e ∈ l ∨ e = (h, t) := by
  induction l with
  | nil =>
      simp [blockInsert] at he
      exact Or.inr he
  | cons p rest ih =>
      obtain ⟨h2, t2⟩ := p
      by_cases hh : h2 = h
      · subst hh
        simp only [blockInsert, if_pos rfl] at he
        rcases List.mem_cons.mp he with he1 | he2
        · exact Or.inr he1
        · exact Or.inl (List.mem_cons_of_mem _ he2)
      · simp only [blockInsert, if_neg hh] at he
        rcases List.mem_cons.mp he with he1 | he2
        · exact Or.inl (he1 ▸ List.mem_cons_self _ _)
        · rcases ih he2 with hm | hn
          · exact Or.inl (List.mem_cons_of_mem _ hm)
          · exact Or.inr hn

theorem blockInsert_fst_none {τ : Type} (l : List (ℕ × τ)) (h : ℕ) (t : τ) :
    (blockInsert l h t).1 = none ↔ h ∉ l.map Prod.fst := by
  induction l with
  | nil => simp [blockInsert]
  | cons p rest ih =>
      obtain ⟨h2, t2⟩ := p
      by_cases hh : h2 = h
      · subst hh
        simp [blockInsert]
      · simp only [blockInsert, if_neg hh, List.map_cons, List.mem_cons]
        rw [ih]
        constructor
        · intro hn hc
          rcases hc with he | hm
          · exact hh he.symm
          · exact hn hm
        · intro hn
          exact fun hm => hn (Or.inr hm)

theorem blockInsert_fst_some_mem {τ : Type} {l : List (ℕ × τ)} {h : ℕ} {t p : τ}
    (hs : (blockInsert l h t).1 = some p) : (h, p) ∈ l := by
  induction l with
  | nil => simp [blockInsert] at hs
  | cons q rest ih =>
      obtain ⟨h2, t2⟩ := q
      by_cases hh : h2 = h
      · subst hh
        simp only [blockInsert, if_pos rfl] at hs
        cases hs
        exact List.mem_cons_self _ _
      · simp only [blockInsert, if_neg hh] at hs
        exact List.mem_cons_of_mem _ (ih hs)

theorem blockInsert_fst_of_mem {τ : Type} {l : List (ℕ × τ)} {h : ℕ} {t p : τ}
    (hnd : (l.map Prod.fst).Nodup) (hm : (h, p) ∈ l) :
    (blockInsert l h t).1 = some p := by
  induction l with
  | nil => simp at hm
  | cons q rest ih =>
      obtain ⟨h2, t2⟩ := q
      by_cases hh : h2 = h
      · simp only [blockInsert, if_pos hh]
        rcases List.mem_cons.mp hm with he | hmem
        · rw [(Prod.mk.injEq _ _ _ _).mp he.symm |>.2]
        · exfalso
          have hmem2 : h ∈ rest.map Prod.fst := List.mem_map.mpr ⟨(h, p), hmem, rfl⟩
          rw [List.map_cons, List.nodup_cons] at hnd
          exact hnd.1 (hh ▸ hmem2)
      · simp only [blockInsert, if_neg hh]
        rcases List.mem_cons.mp hm with he | hmem
        · exact absurd (congrArg Prod.fst he).symm hh
        · exact ih (List.nodup_cons.mp hnd).2 hmem

theorem blockInsert_snd_of_not_mem {τ : Type} {l : List (ℕ × τ)} {h : ℕ} {t : τ}
    (hn : h ∉ l.map Prod.fst) : (blockInsert l h t).2 = l ++ [(h, t)] := by
  induction l with
  | nil => simp [blockInsert]
  | cons q rest ih =>
      obtain ⟨h2, t2⟩ := q
      have hh : h2 ≠ h := by
        intro he
        exact hn (by simp [he])
      simp only [blockInsert, if_neg hh, List.cons_append, List.cons.injEq, true_and]
      exact ih fun hc => hn (List.mem_cons_of_mem _ hc)

/-! ### storedPairs lemmas -/

theorem mem_storedPairs {τ : Type} {st : BlockDirectory τ} {e : ℕ × τ} :
    e ∈ storedPairs st ↔ ∃ (i : ℕ) (b : Bucket τ), st.buckets[i]? = some b ∧ e ∈ b.contents := by
  rw [storedPairs, List.mem_flatMap]
  constructor
  · rintro ⟨b, hb, he⟩
    rw [List.mem_iff_getElem?] at hb
    obtain ⟨i, hi⟩ := hb
    exact ⟨i, b, hi, he⟩
  · rintro ⟨i, b, hi, he⟩
    exact ⟨b, List.getElem?_mem hi, he⟩

/-! ### DirInv: initial state and single block insert -/

theorem dirInv_init {τ : Type} (hashT : τ → ℕ) (bs : ℕ) :
    DirInv (initDirectory hashT bs) := by
  refine ⟨le_refl 1, ?_, ?_, ?_, ?_, ?_, ?_, ?_, ?_⟩ <;>
    simp [initDirectory, lookupKey]

theorem dirInv_insertFound {τ : Type} {st : BlockDirectory τ} {h bi : ℕ} {b : Bucket τ}
    {t : τ}
    (hInv : DirInv st)
    (hlk : lookupKey st.directories (h % 2 ^ st.globalDepth) = some bi)
    (hb : st.buckets[bi]? = some b)
    (hht : h = st.hashT t) :
    DirInv { st with
      buckets := st.buckets.set bi ⟨b.localDepth, (blockInsert b.contents h t).2⟩ } := by
  have hbl : bi < st.buckets.length := (List.getElem?_eq_some_iff.mp hb).1
  have hbmem : b ∈ st.buckets := List.getElem?_mem hb
  refine ⟨hInv.gpos, hInv.keysNodup, hInv.keysLt, ?_, ?_, ?_, ?_, ?_, ?_⟩
  · intro p hp
    simpa using hInv.valsLt p hp
  · intro b2 hb2
    rcases List.mem_or_eq_of_mem_set hb2 with hold | hnew
    · exact hInv.localLe b2 hold
    · rw [hnew]
      exact hInv.localLe b hbmem
  · intro p hp q hq hpq b2 hb2
    by_cases hpi : p.2 = bi
    · rw [hpi, List.getElem?_set_self hbl] at hb2
      cases hb2
      have := hInv.keysCoherent p hp q hq hpq b (hpi ▸ hb)
      simpa using this
    · rw [List.getElem?_set_ne (fun he => hpi he.symm)] at hb2
      exact hInv.keysCoherent p hp q hq hpq b2 hb2
  · intro b2 hb2 e he
    rcases List.mem_or_eq_of_mem_set hb2 with hold | hnew
    · exact hInv.hashStored b2 hold e he
    · rw [hnew] at he
      rcases blockInsert_mem he with hm | hn
      · exact hInv.hashStored b hbmem e hm
      · rw [hn, hht]
  · intro b2 hb2
    rcases List.mem_or_eq_of_mem_set hb2 with hold | hnew
    · exact hInv.hashesNodup b2 hold
    · rw [hnew]
      have hk := blockInsert_keys b.contents h t
      by_cases hmem : h ∈ b.contents.map Prod.fst
      · rw [if_pos hmem] at hk
        rw [hk]
        exact hInv.hashesNodup b hbmem
      · rw [if_neg hmem] at hk
        rw [hk]
        simp only [List.nodup_append, List.nodup_cons, List.not_mem_nil, not_false_iff,
          List.nodup_nil, and_true, true_and]
        refine ⟨hInv.hashesNodup b hbmem, ?_⟩
        intro a ha hc
        rcases List.mem_singleton.mp hc with rfl
        exact hmem ha
  · intro i b2 hb2 e he
    by_cases hi : i = bi
    · rw [hi, List.getElem?_set_self hbl] at hb2
      cases hb2
      rcases blockInsert_mem he with hm | hn
      · rw [hi]
        exact hInv.findable bi b hb e hm
      · rw [hi, hn]
        exact hlk
    · rw [List.getElem?_set_ne (fun he2 => hi he2.symm)] at hb2
      exact hInv.findable i b2 hb2 e he

/-! ### redistribute lemmas -/

theorem contents_subset_storedPairs {τ : Type} {st : BlockDirectory τ} {bi : ℕ}
    {b : Bucket τ} (hb : st.buckets[bi]? = some b) {e : ℕ × τ} (he : e ∈ b.contents) :
    e ∈ storedPairs st :=
  mem_storedPairs.mpr ⟨bi, b, hb, he⟩

theorem mem_storedPairs_set_append {τ : Type} {st : BlockDirectory τ} {bi : ℕ}
    {b : Bucket τ} (hb : st.buckets[bi]? = some b) (dth : ℕ) (x : ℕ × τ) (e : ℕ × τ) :
    e ∈ storedPairs { st with buckets := st.buckets.set bi ⟨dth, b.contents ++ [x]⟩ } ↔
      e ∈ storedPairs st ∨ e = x := by
  have hbl : bi < st.buckets.length := (List.getElem?_eq_some_iff.mp hb).1
  constructor
  · intro he
    rcases mem_storedPairs.mp he with ⟨j, b2, hj, he2⟩
    by_cases hji : j = bi
    · rw [hji, List.getElem?_set_self hbl] at hj
      cases hj
      rcases List.mem_append.mp he2 with hm | hx
      · exact Or.inl (contents_subset_storedPairs hb hm)
      · exact Or.inr (List.mem_singleton.mp hx)
    · rw [List.getElem?_set_ne (fun h2 => hji h2.symm)] at hj
      exact Or.inl (contents_subset_storedPairs hj he2)
  · intro he
    rcases he with hm | hx
    · rcases mem_storedPairs.mp hm with ⟨j, b2, hj, he2⟩
      by_cases hji : j = bi
      · rw [hji] at hj
        rw [hj] at hb
        cases hb
        exact mem_storedPairs.mpr ⟨bi, _, List.getElem?_set_self hbl, List.mem_append_left _ he2⟩
      · exact mem_storedPairs.mpr
          ⟨j, b2, by rw [List.getElem?_set_ne (fun h2 => hji h2.symm)]; exact hj, he2⟩
    · exact mem_storedPairs.mpr
        ⟨bi, _, List.getElem?_set_self hbl, by rw [hx]; exact List.mem_append_right _ (List.mem_singleton.mpr rfl)⟩

theorem dirInv_redistribute {τ : Type} :
    ∀ (ts : List τ) (st st2 : BlockDirectory τ),
    DirInv st → redistribute st ts = some st2 →
    DirInv st2 ∧ st2.hashT = st.hashT ∧ st2.globalDepth = st.globalDepth ∧
      st2.bucketSize = st.bucketSize ∧ st2.directories = st.directories := by
  intro ts
  induction ts with
  | nil =>
      intro st st2 hInv hred
      rw [redistribute] at hred
      cases hred
      exact ⟨hInv, rfl, rfl, rfl, rfl⟩
  | cons t rest ih =>
      intro st st2 hInv hred
      rw [redistribute] at hred
      rcases hl : lookupKey st.directories (st.hashT t &&& maskIter st.globalDepth) with _ | bi
      · rw [hl] at hred
        simp at hred
      · rw [hl] at hred
        simp only at hred
        rcases hbx : st.buckets[bi]? with _ | b
        · rw [hbx] at hred
          simp at hred
        · rw [hbx] at hred
          simp only at hred
          have hlk : lookupKey st.directories (st.hashT t % 2 ^ st.globalDepth) = some bi := by
            rw [← and_maskIter]
            exact hl
          have hInv2 := dirInv_insertFound hInv hlk hbx rfl
          obtain ⟨hI, hh, hg, hbs, hd⟩ := ih _ _ hInv2 hred
          exact ⟨hI, hh, hg, hbs, hd⟩

theorem redistribute_pairs {τ : Type} :
    ∀ (ts : List τ) (st st2 : BlockDirectory τ),
    (∀ t ∈ ts, st.hashT t ∉ (storedPairs st).map Prod.fst) →
    (ts.map st.hashT).Nodup →
    redistribute st ts = some st2 →
    ∀ e, e ∈ storedPairs st2 ↔
      e ∈ storedPairs st ∨ e ∈ ts.map (fun t => (st.hashT t, t)) := by
  intro ts
  induction ts with
  | nil =>
      intro st st2 _ _ hred e
      rw [redistribute] at hred
      cases hred
      simp
  | cons t rest ih =>
      intro st st2 hts hnd hred e
      rw [redistribute] at hred
      rcases hl : lookupKey st.directories (st.hashT t &&& maskIter st.globalDepth) with _ | bi
      · rw [hl] at hred
        simp at hred
      · rw [hl] at hred
        simp only at hred
        rcases hbx : st.buckets[bi]? with _ | b
        · rw [hbx] at hred
          simp at hred
        · rw [hbx] at hred
          simp only at hred
          have hnotb : st.hashT t ∉ b.contents.map Prod.fst := by
            intro hc
            rcases List.mem_map.mp hc with ⟨e2, he2, hfst⟩
            exact hts t (List.mem_cons_self _ _)
              (List.mem_map.mpr ⟨e2, contents_subset_storedPairs hbx he2, hfst⟩)
          have hins : (blockInsert b.contents (st.hashT t) t).2 =
              b.contents ++ [(st.hashT t, t)] := blockInsert_snd_of_not_mem hnotb
          rw [hins] at hred
          have hmemchar := mem_storedPairs_set_append hbx b.localDepth (st.hashT t, t)
          have hts2 : ∀ t2 ∈ rest, ({ st with buckets := st.buckets.set bi ⟨b.localDepth, b.contents ++ [(st.hashT t, t)]⟩ } : BlockDirectory τ).hashT t2 ∉ (storedPairs ({ st with buckets := st.buckets.set bi ⟨b.localDepth, b.contents ++ [(st.hashT t, t)]⟩ } : BlockDirectory τ)).map Prod.fst := by
            intro t2 ht2 hc
            rcases List.mem_map.mp hc with ⟨e2, he2, hfst⟩
            rcases (hmemchar e2).mp he2 with hold | hx
            · exact hts t2 (List.mem_cons_of_mem _ ht2)
                (List.mem_map.mpr ⟨e2, hold, hfst⟩)
            · rw [hx] at hfst
              have heq : st.hashT t2 = st.hashT t := hfst.symm
              rw [List.map_cons, List.nodup_cons] at hnd
              exact hnd.1 (heq ▸ List.mem_map.mpr ⟨t2, ht2, rfl⟩)
          have hnd2 : (rest.map ({ st with buckets := st.buckets.set bi ⟨b.localDepth, b.contents ++ [(st.hashT t, t)]⟩ } : BlockDirectory τ).hashT).Nodup := by
            rw [List.map_cons, List.nodup_cons] at hnd
            exact hnd.2
          have hres := ih _ _ hts2 hnd2 hred e
          rw [hres]
          constructor
          · intro hcase
            rcases hcase with hmem | hrest
            · rcases (hmemchar e).mp hmem with hold | hx
              · exact Or.inl hold
              · exact Or.inr (by rw [hx]; exact List.mem_map.mpr ⟨t, List.mem_cons_self _ _, rfl⟩)
            · refine Or.inr ?_
              rw [List.map_cons]
              exact List.mem_cons_of_mem _ hrest
          · intro hcase
            rcases hcase with hold | hmap
            · exact Or.inl ((hmemchar e).mpr (Or.inl hold))
            · rw [List.map_cons] at hmap
              rcases List.mem_cons.mp hmap with hx | hrest
              · exact Or.inl ((hmemchar e).mpr (Or.inr hx))
              · exact Or.inr hrest

/-! ### getBucketFromDirectory lemmas -/

theorem getBucket_spec {τ : Type} {st st2 : BlockDirectory τ} {dn i : ℕ}
    (hInv : DirInv st) (hdn : dn < 2 ^ st.globalDepth)
    (hpr : getBucketFromDirectory st dn = (i, st2)) :
    DirInv st2 ∧ lookupKey st2.directories dn = some i ∧
    st2.hashT = st.hashT ∧ st2.globalDepth = st.globalDepth ∧
    st2.bucketSize = st.bucketSize ∧ storedPairs st2 = storedPairs st := by
  rw [getBucketFromDirectory] at hpr
  rcases hl : lookupKey st.directories dn with _ | j
  · rw [hl] at hpr
    simp only at hpr
    rw [Prod.mk.injEq] at hpr
    obtain ⟨rfl, rfl⟩ := hpr
    have hnotin := lookupKey_none hl
    have hlen : ∀ p ∈ st.directories, p.2 < st.buckets.length := hInv.valsLt
    refine ⟨?_, ?_, rfl, rfl, rfl, ?_⟩
    · refine ⟨hInv.gpos, ?_, ?_, ?_, ?_, ?_, ?_, ?_, ?_⟩
      · simp only [List.map_append, List.map_cons, List.map_nil]
        rw [List.nodup_append]
        refine ⟨hInv.keysNodup, List.nodup_singleton _, ?_⟩
        intro a ha hb
        rcases List.mem_singleton.mp hb with rfl
        exact hnotin ha
      · intro p hp
        rcases List.mem_append.mp hp with hold | hnew
        · exact hInv.keysLt p hold
        · rcases List.mem_singleton.mp hnew with rfl
          exact hdn
      · intro p hp
        simp only [List.length_append, List.length_cons, List.length_nil]
        rcases List.mem_append.mp hp with hold | hnew
        · have := hInv.valsLt p hold
          omega
        · rcases List.mem_singleton.mp hnew with rfl
          simp
      · intro b hb
        rcases List.mem_append.mp hb with hold | hnew
        · exact hInv.localLe b hold
        · rcases List.mem_singleton.mp hnew with rfl
          exact hInv.gpos
      · intro p hp q hq hpq b hb
        rcases List.mem_append.mp hp with holdp | hnewp
        · rcases List.mem_append.mp hq with holdq | hnewq
          · have hplt := hInv.valsLt p holdp
            rw [List.getElem?_append_left hplt] at hb
            exact hInv.keysCoherent p holdp q holdq hpq b hb
          · rcases List.mem_singleton.mp hnewq with rfl
            have := hInv.valsLt p holdp
            simp only [] at hpq
            omega
        · rcases List.mem_singleton.mp hnewp with rfl
          rcases List.mem_append.mp hq with holdq | hnewq
          · have := hInv.valsLt q holdq
            simp only [] at hpq
            omega
          · rcases List.mem_singleton.mp hnewq with rfl
            rfl
      · intro b hb e he
        rcases List.mem_append.mp hb with hold | hnew
        · exact hInv.hashStored b hold e he
        · rcases List.mem_singleton.mp hnew with rfl
          simp at he
      · intro b hb
        rcases List.mem_append.mp hb with hold | hnew
        · exact hInv.hashesNodup b hold
        · rcases List.mem_singleton.mp hnew with rfl
          simp
      · intro i2 b hb e he
        have hi2 : i2 < st.buckets.length + 1 := by
          have := (List.getElem?_eq_some_iff.mp hb).1
          simpa using this
        by_cases hcase : i2 < st.buckets.length
        · rw [List.getElem?_append_left hcase] at hb
          exact lookupKey_append_left (hInv.findable i2 b hb e he)
        · have hi2e : i2 = st.buckets.length := by omega
          subst hi2e
          rw [List.getElem?_append_right (le_refl _)] at hb
          simp at hb
          rw [← hb] at he
          simp at he
    · rw [lookupKey_append_of_none hl]
      simp [lookupKey]
    · rw [storedPairs, storedPairs]
      simp [List.flatMap_append]
  · rw [hl] at hpr
    simp only at hpr
    rw [Prod.mk.injEq] at hpr
    obtain ⟨rfl, rfl⟩ := hpr
    exact ⟨hInv, hl, rfl, rfl, rfl, rfl⟩

/-! ### expandDirectory lemmas -/

theorem mem_doubled {g : ℕ} {l : List (ℕ × ℕ)} {p : ℕ × ℕ} :
    p ∈ (l.flatMap fun q => [(q.1, q.2), (q.1 ||| (1 <<< g), q.2)]) ↔
      ∃ q ∈ l, p = (q.1, q.2) ∨ p = (q.1 ||| (1 <<< g), q.2) := by
  simp [List.mem_flatMap]

theorem lookup_doubled (g : ℕ) : ∀ (l : List (ℕ × ℕ)), (∀ p ∈ l, p.1 < 2 ^ g) → ∀ (x : ℕ),
    lookupKey (l.flatMap fun p => [(p.1, p.2), (p.1 ||| (1 <<< g), p.2)]) (x % 2 ^ (g + 1)) =
      lookupKey l (x % 2 ^ g) := by
  intro l
  induction l with
  | nil => intro _ x; simp [lookupKey]
  | cons p rest ih =>
      intro hkeys x
      obtain ⟨k, v⟩ := p
      have hk : k < 2 ^ g := hkeys (k, v) (List.mem_cons_self _ _)
      have hkk : x % 2 ^ g < 2 ^ g := Nat.mod_lt x (Nat.pos_pow_of_pos _ (by norm_num))
      have hpow : 0 < 2 ^ g := Nat.pos_pow_of_pos g (by norm_num)
      have hlor : k ||| (1 <<< g) = k + 2 ^ g := by
        rw [one_shiftLeft]
        exact lor_two_pow_of_lt hk
      have hfm : (((k, v) :: rest).flatMap fun p => [(p.1, p.2), (p.1 ||| (1 <<< g), p.2)]) =
          (k, v) :: (k + 2 ^ g, v) ::
            (rest.flatMap fun p => [(p.1, p.2), (p.1 ||| (1 <<< g), p.2)]) := by
        rw [List.flatMap_cons]
        simp only [hlor]
        rfl
      rw [hfm, lookupKey, lookupKey, lookupKey]
      have ihr := ih (fun q hq => hkeys q (List.mem_cons_of_mem _ hq)) x
      rcases mod_two_pow_succ_cases x g with hc | hc
      · by_cases hke : k = x % 2 ^ g
        · rw [if_pos (by omega), if_pos hke]
        · rw [if_neg (by omega), if_neg (by omega), if_neg hke]
          exact ihr
      · by_cases hke : k = x % 2 ^ g
        · rw [if_neg (by omega), if_pos (by omega), if_pos hke]
        · rw [if_neg (by omega), if_neg (by omega), if_neg hke]
          exact ihr

theorem nodup_doubled (g : ℕ) : ∀ (l : List (ℕ × ℕ)), (∀ p ∈ l, p.1 < 2 ^ g) →
    (l.map Prod.fst).Nodup →
    ((l.flatMap fun p => [(p.1, p.2), (p.1 ||| (1 <<< g), p.2)]).map Prod.fst).Nodup := by
  intro l
  induction l with
  | nil => intro _ _; simp
  | cons p rest ih =>
      intro hkeys hnd
      obtain ⟨k, v⟩ := p
      have hk : k < 2 ^ g := hkeys (k, v) (List.mem_cons_self _ _)
      have hpow : 0 < 2 ^ g := Nat.pos_pow_of_pos g (by norm_num)
      have hlor : k ||| (1 <<< g) = k + 2 ^ g := by
        rw [one_shiftLeft]
        exact lor_two_pow_of_lt hk
      rw [List.map_cons, List.nodup_cons] at hnd
      have hmemd : ∀ a, a ∈ ((rest.flatMap fun p =>
          [(p.1, p.2), (p.1 ||| (1 <<< g), p.2)]).map Prod.fst) →
          ∃ q ∈ rest, a = q.1 ∨ a = q.1 + 2 ^ g := by
        intro a ha
        rcases List.mem_map.mp ha with ⟨e, he, hfst⟩
        rcases mem_doubled.mp he with ⟨q, hq, hcase⟩
        refine ⟨q, hq, ?_⟩
        have hqk : q.1 < 2 ^ g := hkeys q (List.mem_cons_of_mem _ hq)
        have hlorq : q.1 ||| (1 <<< g) = q.1 + 2 ^ g := by
          rw [one_shiftLeft]
          exact lor_two_pow_of_lt hqk
        rcases hcase with h1 | h2
        · exact Or.inl (by rw [← hfst, h1])
        · exact Or.inr (by rw [← hfst, h2, hlorq])
      have hfm : (((k, v) :: rest).flatMap fun p => [(p.1, p.2), (p.1 ||| (1 <<< g), p.2)]) =
          (k, v) :: (k + 2 ^ g, v) ::
            (rest.flatMap fun p => [(p.1, p.2), (p.1 ||| (1 <<< g), p.2)]) := by
        rw [List.flatMap_cons]
        simp only [hlor]
        rfl
      rw [hfm, List.map_cons, List.map_cons, List.nodup_cons, List.nodup_cons]
      refine ⟨?_, ?_, ih (fun q hq => hkeys q (List.mem_cons_of_mem _ hq)) hnd.2⟩
      · intro hc
        rcases List.mem_cons.mp hc with he | hmem
        · omega
        · rcases hmemd k hmem with ⟨q, hq, hcase⟩
          have hqk : q.1 < 2 ^ g := hkeys q (List.mem_cons_of_mem _ hq)
          rcases hcase with h1 | h2
          · exact hnd.1 (h1 ▸ List.mem_map.mpr ⟨q, hq, rfl⟩)
          · omega
      · intro hc
        rcases hmemd (k + 2 ^ g) hc with ⟨q, hq, hcase⟩
        have hqk : q.1 < 2 ^ g := hkeys q (List.mem_cons_of_mem _ hq)
        rcases hcase with h1 | h2
        · omega
        · have heq : k = q.1 := by omega
          exact hnd.1 (heq ▸ List.mem_map.mpr ⟨q, hq, rfl⟩)

theorem dirInv_expand {τ : Type} {st : BlockDirectory τ} (hInv : DirInv st) :
    DirInv (expandDirectory st) := by
  have hg : (expandDirectory st).globalDepth = st.globalDepth + 1 := rfl
  have hd : (expandDirectory st).directories =
      st.directories.flatMap (fun p => [(p.1, p.2), (p.1 ||| (1 <<< st.globalDepth), p.2)]) := rfl
  have hb : (expandDirectory st).buckets = st.buckets := rfl
  have hpow : 0 < 2 ^ st.globalDepth := Nat.pos_pow_of_pos _ (by norm_num)
  refine ⟨?_, ?_, ?_, ?_, ?_, ?_, ?_, ?_, ?_⟩
  · rw [hg]
    omega
  · rw [hd]
    exact nodup_doubled _ _ hInv.keysLt hInv.keysNodup
  · intro p hp
    rw [hd] at hp
    rw [hg]
    rcases mem_doubled.mp hp with ⟨q, hq, hcase⟩
    have hqk : q.1 < 2 ^ st.globalDepth := hInv.keysLt q hq
    have hlorq : q.1 ||| (1 <<< st.globalDepth) = q.1 + 2 ^ st.globalDepth := by
      rw [one_shiftLeft]
      exact lor_two_pow_of_lt hqk
    have h2 : (2:ℕ) ^ (st.globalDepth + 1) = 2 ^ st.globalDepth + 2 ^ st.globalDepth := by ring
    rcases hcase with h1 | h1
    · rw [h1]
      simp only []
      omega
    · rw [h1, hlorq]
      simp only []
      omega
  · intro p hp
    rw [hd] at hp
    rw [hb]
    rcases mem_doubled.mp hp with ⟨q, hq, hcase⟩
    have := hInv.valsLt q hq
    rcases hcase with h1 | h1 <;> rw [h1] <;> simpa using this
  · intro b hbm
    rw [hb] at hbm
    rw [hg]
    exact le_trans (hInv.localLe b hbm) (Nat.le_succ _)
  · intro p hp q hq hpq b hbm
    rw [hd] at hp hq
    rw [hb] at hbm
    rcases mem_doubled.mp hp with ⟨p0, hp0, hpc⟩
    rcases mem_doubled.mp hq with ⟨q0, hq0, hqc⟩
    have hdep : b.localDepth ≤ st.globalDepth := by
      have hblt : p.2 < st.buckets.length := by
        have hpk : p.2 = p0.2 := by rcases hpc with h1 | h1 <;> rw [h1]
        rw [hpk]
        exact hInv.valsLt p0 hp0
      exact hInv.localLe b (List.getElem?_mem hbm)
    have hmodp : ∀ (k : ℕ), k < 2 ^ st.globalDepth →
        (k + 2 ^ st.globalDepth) % 2 ^ b.localDepth = k % 2 ^ b.localDepth := by
      intro k _
      have : (2:ℕ) ^ st.globalDepth = 2 ^ b.localDepth * 2 ^ (st.globalDepth - b.localDepth) := by
        rw [← pow_add]
        congr 1
        omega
      rw [this, Nat.add_mul_mod_self_left]
    have hpfst : p.1 % 2 ^ b.localDepth = p0.1 % 2 ^ b.localDepth := by
      have hqk : p0.1 < 2 ^ st.globalDepth := hInv.keysLt p0 hp0
      have hlorq : p0.1 ||| (1 <<< st.globalDepth) = p0.1 + 2 ^ st.globalDepth := by
        rw [one_shiftLeft]
        exact lor_two_pow_of_lt hqk
      rcases hpc with h1 | h1
      · rw [h1]
      · rw [h1]
        simp only [hlorq]
        exact hmodp p0.1 hqk
    have hqfst : q.1 % 2 ^ b.localDepth = q0.1 % 2 ^ b.localDepth := by
      have hqk : q0.1 < 2 ^ st.globalDepth := hInv.keysLt q0 hq0
      have hlorq : q0.1 ||| (1 <<< st.globalDepth) = q0.1 + 2 ^ st.globalDepth := by
        rw [one_shiftLeft]
        exact lor_two_pow_of_lt hqk
      rcases hqc with h1 | h1
      · rw [h1]
      · rw [h1]
        simp only [hlorq]
        exact hmodp q0.1 hqk
    have hval : p0.2 = q0.2 := by
      have hp2 : p.2 = p0.2 := by rcases hpc with h1 | h1 <;> rw [h1]
      have hq2 : q.2 = q0.2 := by rcases hqc with h1 | h1 <;> rw [h1]
      rw [← hp2, ← hq2]
      exact hpq
    have hp2 : p.2 = p0.2 := by rcases hpc with h1 | h1 <;> rw [h1]
    rw [hpfst, hqfst]
    exact hInv.keysCoherent p0 hp0 q0 hq0 hval b (by rw [← hp2]; exact hbm)
  · intro b hbm e he
    rw [hb] at hbm
    exact hInv.hashStored b hbm e he
  · intro b hbm
    rw [hb] at hbm
    exact hInv.hashesNodup b hbm
  · intro i b hbm e he
    rw [hb] at hbm
    rw [hd, hg]
    rw [lookup_doubled _ _ hInv.keysLt]
    exact hInv.findable i b hbm e he

/-! ### splitCore lemmas -/

theorem lookupKey_map_fix (f : ℕ × ℕ → ℕ × ℕ) (hf1 : ∀ p, (f p).1 = p.1) :
    ∀ (l : List (ℕ × ℕ)) (k j : ℕ), lookupKey l k = some j → f (k, j) = (k, j) →
    lookupKey (l.map f) k = some j := by
  intro l
  induction l with
  | nil => intro k j hl _; simp [lookupKey] at hl
  | cons p rest ih =>
      intro k j hl hfix
      obtain ⟨k0, v0⟩ := p
      rcases hfp : f (k0, v0) with ⟨a, c⟩
      have ha : a = k0 := by
        have := hf1 (k0, v0)
        rw [hfp] at this
        exact this
      rw [lookupKey] at hl
      rw [List.map_cons, hfp, lookupKey]
      by_cases hk : k0 = k
      · rw [if_pos hk] at hl
        have hv : v0 = j := by injection hl
        subst hv
        subst hk
        rw [hfix] at hfp
        have h1 : k0 = a := by injection hfp
        have h2 : v0 = c := by injection hfp
        rw [if_pos h1.symm, ← h2]
      · rw [if_neg hk] at hl
        rw [if_neg (by rw [ha]; exact hk)]
        exact ih k j hl hfix
theorem splitCore_spec {τ : Type} {st st2 : BlockDirectory τ} {bucketIndex dn : ℕ}
    {b1 : Bucket τ}
    (hInv : DirInv st)
    (hb : st.buckets[bucketIndex]? = some b1)
    (hdepth : b1.localDepth < st.globalDepth)
    (hdn : (dn, bucketIndex) ∈ st.directories)
    (hsp : splitCore st bucketIndex dn = some st2) :
    DirInv st2 ∧ st2.hashT = st.hashT ∧ st2.globalDepth = st.globalDepth ∧
      st2.bucketSize = st.bucketSize ∧
      (∀ e, e ∈ storedPairs st2 ↔ e ∈ storedPairs st) := by
  rw [splitCore] at hsp
  rw [hb] at hsp
  simp only [List.length_set, Nat.add_sub_cancel] at hsp
  have hbl : bucketIndex < st.buckets.length := (List.getElem?_eq_some_iff.mp hb).1
  have hmem_b1 : b1 ∈ st.buckets := List.getElem?_mem hb
  have hpow : 0 < 2 ^ b1.localDepth := Nat.pos_pow_of_pos _ (by norm_num)
  have hpowd : 0 < 2 ^ (b1.localDepth + 1) := Nat.pos_pow_of_pos _ (by norm_num)
  have hhigher : dn &&& maskIter b1.localDepth ||| 1 <<< b1.localDepth =
      dn % 2 ^ b1.localDepth + 2 ^ b1.localDepth := by
    rw [and_maskIter, one_shiftLeft]
    exact lor_two_pow_of_lt (Nat.mod_lt dn hpow)
  set f : ℕ × ℕ → ℕ × ℕ := fun p =>
    if p.1 &&& maskIter (b1.localDepth + 1) =
        dn &&& maskIter b1.localDepth ||| 1 <<< b1.localDepth ∧ p.2 = bucketIndex
    then (p.1, st.buckets.length) else p with hf
  set B4 : List (Bucket τ) :=
    st.buckets.set bucketIndex ⟨b1.localDepth + 1, []⟩ ++ [(⟨b1.localDepth + 1, []⟩ : Bucket τ)]
    with hB4def
  set st4 : BlockDirectory τ :=
    { hashT := st.hashT, bucketSize := st.bucketSize, globalDepth := st.globalDepth,
      directories := st.directories.map f, buckets := B4 } with hst4
  have hf1 : ∀ p, (f p).1 = p.1 := by
    intro p
    simp only [hf]
    by_cases hc : p.1 &&& maskIter (b1.localDepth + 1) =
        dn &&& maskIter b1.localDepth ||| 1 <<< b1.localDepth ∧ p.2 = bucketIndex
    · rw [if_pos hc]
    · rw [if_neg hc]
  have hB4bi : B4[bucketIndex]? = some ⟨b1.localDepth + 1, []⟩ := by
    rw [hB4def, List.getElem?_append_left (by simpa using hbl), List.getElem?_set_self hbl]
  have hB4new : B4[st.buckets.length]? = some ⟨b1.localDepth + 1, []⟩ := by
    rw [hB4def, List.getElem?_append_right (by simp), List.length_set]
    simp
  have hB4char : ∀ (j : ℕ) (b2 : Bucket τ), B4[j]? = some b2 →
      (j ≠ bucketIndex ∧ j ≠ st.buckets.length ∧ st.buckets[j]? = some b2) ∨
        b2 = ⟨b1.localDepth + 1, []⟩ := by
    intro j b2 hj
    by_cases hji : j = bucketIndex
    · subst hji
      rw [hB4bi] at hj
      exact Or.inr (by injection hj.symm)
    · by_cases hjl : j < st.buckets.length
      · rw [hB4def, List.getElem?_append_left (by simpa using hjl),
          List.getElem?_set_ne (fun h2 => hji h2.symm)] at hj
        exact Or.inl ⟨hji, by omega, hj⟩
      · by_cases hje : j = st.buckets.length
        · subst hje
          rw [hB4new] at hj
          exact Or.inr (by injection hj.symm)
        · exfalso
          rw [hB4def, List.getElem?_append_right (by simp; omega)] at hj
          rw [List.length_set] at hj
          rw [List.getElem?_eq_none_iff.mpr (by simp; omega)] at hj
          exact Option.noConfusion hj
  have hD4mem : ∀ p2 ∈ st.directories.map f, ∃ p ∈ st.directories,
      (p2 = p ∧ ¬(p.1 % 2 ^ (b1.localDepth + 1) =
        dn % 2 ^ b1.localDepth + 2 ^ b1.localDepth ∧ p.2 = bucketIndex)) ∨
      (p2 = (p.1, st.buckets.length) ∧
        p.1 % 2 ^ (b1.localDepth + 1) = dn % 2 ^ b1.localDepth + 2 ^ b1.localDepth ∧
        p.2 = bucketIndex) := by
    intro p2 hp2
    rcases List.mem_map.mp hp2 with ⟨p, hp, hfp⟩
    refine ⟨p, hp, ?_⟩
    simp only [hf] at hfp
    by_cases hc : p.1 &&& maskIter (b1.localDepth + 1) =
        dn &&& maskIter b1.localDepth ||| 1 <<< b1.localDepth ∧ p.2 = bucketIndex
    · rw [if_pos hc] at hfp
      refine Or.inr ⟨hfp.symm, ?_, hc.2⟩
      rw [← and_maskIter, hc.1, hhigher]
    · rw [if_neg hc] at hfp
      refine Or.inl ⟨hfp.symm, ?_⟩
      intro hc2
      apply hc
      refine ⟨?_, hc2.2⟩
      rw [and_maskIter, hhigher, hc2.1]
  have hkeysD4 : (st.directories.map f).map Prod.fst = st.directories.map Prod.fst := by
    rw [List.map_map]
    apply List.map_congr_left
    intro p _
    exact hf1 p
  have hprefix : ∀ p ∈ st.directories, p.2 = bucketIndex →
      p.1 % 2 ^ b1.localDepth = dn % 2 ^ b1.localDepth := by
    intro p hp hpv
    exact hInv.keysCoherent p hp (dn, bucketIndex) hdn hpv b1 (by rw [hpv]; exact hb)
  have hInv4 : DirInv st4 := by
    refine ⟨hInv.gpos, ?_, ?_, ?_, ?_, ?_, ?_, ?_, ?_⟩
    · show ((st.directories.map f).map Prod.fst).Nodup
      rw [hkeysD4]
      exact hInv.keysNodup
    · intro p2 hp2
      rcases hD4mem p2 hp2 with ⟨p, hp, hcase⟩
      have := hInv.keysLt p hp
      rcases hcase with ⟨he, _⟩ | ⟨he, _, _⟩ <;> rw [he] <;> simpa using this
    · intro p2 hp2
      show p2.2 < B4.length
      have hlen : B4.length = st.buckets.length + 1 := by
        rw [hB4def]
        simp
      rcases hD4mem p2 hp2 with ⟨p, hp, hcase⟩
      have := hInv.valsLt p hp
      rcases hcase with ⟨he, _⟩ | ⟨he, _, _⟩ <;> rw [he, hlen] <;> simp
      omega
    · intro b2 hb2
      show b2.localDepth ≤ st.globalDepth
      have hb2b : b2 ∈ B4 := hb2
      rw [hB4def] at hb2b
      rcases List.mem_append.mp hb2b with hms | hone
      · rcases List.mem_or_eq_of_mem_set hms with hold | hnew
        · exact hInv.localLe b2 hold
        · rw [hnew]
          exact hdepth
      · rcases List.mem_singleton.mp hone with rfl
        exact hdepth
    · intro p2 hp2 q2 hq2 hpq b2 hb2
      rcases hD4mem p2 hp2 with ⟨p, hp, hpc⟩
      rcases hD4mem q2 hq2 with ⟨q, hq, hqc⟩
      rcases hpc with ⟨hpe, hpn⟩ | ⟨hpe, hpm, hpv⟩
      · rcases hqc with ⟨hqe, hqn⟩ | ⟨hqe, hqm, hqv⟩
        · -- both untouched
          have hpq2 : p.2 = q.2 := by
            rw [hpe, hqe] at hpq
            exact hpq
          by_cases hvb : p.2 = bucketIndex
          · -- both point at the split bucket
            have hbb : b2 = ⟨b1.localDepth + 1, []⟩ := by
              have : B4[p2.2]? = some b2 := hb2
              rw [hpe, hvb] at this
              rw [hB4bi] at this
              injection this.symm
            have hpp := hprefix p hp hvb
            have hqq := hprefix q hq (hpq2 ▸ hvb)
            have hpd : p.1 % 2 ^ (b1.localDepth + 1) = dn % 2 ^ b1.localDepth := by
              rcases mod_two_pow_succ_cases p.1 b1.localDepth with hc1 | hc1
              · rw [hc1, hpp]
              · exfalso
                exact hpn ⟨by rw [hc1, hpp], hvb⟩
            have hqd : q.1 % 2 ^ (b1.localDepth + 1) = dn % 2 ^ b1.localDepth := by
              rcases mod_two_pow_succ_cases q.1 b1.localDepth with hc1 | hc1
              · rw [hc1, hqq]
              · exfalso
                exact hqn ⟨by rw [hc1, hqq], hpq2 ▸ hvb⟩
            rw [hpe, hqe, hbb]
            show p.1 % 2 ^ (b1.localDepth + 1) = q.1 % 2 ^ (b1.localDepth + 1)
            rw [hpd, hqd]
          · -- both point at an untouched bucket
            have hvl : p.2 < st.buckets.length := hInv.valsLt p hp
            have hbold : st.buckets[p.2]? = some b2 := by
              have hx : B4[p2.2]? = some b2 := hb2
              rw [hpe] at hx
              rw [hB4def, List.getElem?_append_left (by simpa using hvl),
                List.getElem?_set_ne (fun h2 => hvb h2.symm)] at hx
              exact hx
            have := hInv.keysCoherent p hp q hq hpq2 b2 hbold
            rw [hpe, hqe]
            exact this
        · -- p untouched, q reassigned: contradiction on values
          exfalso
          have hvl : p.2 < st.buckets.length := hInv.valsLt p hp
          rw [hpe, hqe] at hpq
          simp only [] at hpq
          omega
      · rcases hqc with ⟨hqe, hqn⟩ | ⟨hqe, hqm, hqv⟩
        · exfalso
          have hvl : q.2 < st.buckets.length := hInv.valsLt q hq
          rw [hpe, hqe] at hpq
          simp only [] at hpq
          omega
        · -- both reassigned to the new bucket
          have hbb : b2 = ⟨b1.localDepth + 1, []⟩ := by
            have hx : B4[p2.2]? = some b2 := hb2
            rw [hpe] at hx
            simp only [] at hx
            rw [hB4new] at hx
            injection hx.symm
          rw [hpe, hqe, hbb]
          show p.1 % 2 ^ (b1.localDepth + 1) = q.1 % 2 ^ (b1.localDepth + 1)
          rw [hpm, hqm]
    · intro b2 hb2 e he
      show e.1 = st.hashT e.2
      have hb2b : b2 ∈ B4 := hb2
      rw [hB4def] at hb2b
      rcases List.mem_append.mp hb2b with hms | hone
      · rcases List.mem_or_eq_of_mem_set hms with hold | hnew
        · exact hInv.hashStored b2 hold e he
        · rw [hnew] at he
          simp at he
      · rcases List.mem_singleton.mp hone with rfl
        simp at he
    · intro b2 hb2
      have hb2b : b2 ∈ B4 := hb2
      rw [hB4def] at hb2b
      rcases List.mem_append.mp hb2b with hms | hone
      · rcases List.mem_or_eq_of_mem_set hms with hold | hnew
        · exact hInv.hashesNodup b2 hold
        · rw [hnew]
          simp
      · rcases List.mem_singleton.mp hone with rfl
        simp
    · intro j b2 hj e he
      rcases hB4char j b2 hj with ⟨hji, hjn, hjold⟩ | hnew
      · have hlk := hInv.findable j b2 hjold e he
        show lookupKey (st.directories.map f) (e.1 % 2 ^ st.globalDepth) = some j
        apply lookupKey_map_fix f hf1 _ _ _ hlk
        simp only [hf]
        rw [if_neg]
        intro hc
        exact hji hc.2
      · rw [hnew] at he
        simp at he
  have htup : (b1.contents.map Prod.snd).map (fun t => (st4.hashT t, t)) = b1.contents := by
    show (b1.contents.map Prod.snd).map (fun t => (st.hashT t, t)) = b1.contents
    rw [List.map_map]
    have hcg : ∀ e ∈ b1.contents, ((fun t => (st.hashT t, t)) ∘ Prod.snd) e = id e := by
      intro e he
      have hhs := hInv.hashStored b1 hmem_b1 e he
      simp only [Function.comp_apply, id_eq]
      rw [← hhs]
    rw [List.map_congr_left hcg, List.map_id]
  have hmapshash : (b1.contents.map Prod.snd).map st.hashT = b1.contents.map Prod.fst := by
    rw [List.map_map]
    apply List.map_congr_left
    intro e he
    exact (hInv.hashStored b1 hmem_b1 e he).symm
  have hts : ∀ t ∈ b1.contents.map Prod.snd,
      st4.hashT t ∉ (storedPairs st4).map Prod.fst := by
    intro t ht hc
    rcases List.mem_map.mp ht with ⟨e0, he0, he0t⟩
    rcases List.mem_map.mp hc with ⟨e2, he2, he2f⟩
    rcases mem_storedPairs.mp he2 with ⟨j, b2, hj, hecont⟩
    rcases hB4char j b2 hj with ⟨hji, hjn, hjold⟩ | hnew
    · have hfa := hInv.findable j b2 hjold e2 hecont
      have hfb := hInv.findable bucketIndex b1 hb e0 he0
      have heq : e2.1 = e0.1 := by
        have h1 : e2.1 = st.hashT t := he2f
        have h2 : e0.1 = st.hashT t := by
          rw [hInv.hashStored b1 hmem_b1 e0 he0, he0t]
        rw [h1, h2]
      rw [heq] at hfa
      have hjb : bucketIndex = j := by
        have hcomb := hfb.symm.trans hfa
        injection hcomb
      exact hji hjb.symm
    · rw [hnew] at hecont
      simp at hecont
  have hnd : ((b1.contents.map Prod.snd).map st4.hashT).Nodup := by
    show ((b1.contents.map Prod.snd).map st.hashT).Nodup
    rw [hmapshash]
    exact hInv.hashesNodup b1 hmem_b1
  have hred := redistribute_pairs (b1.contents.map Prod.snd) st4 st2 hts hnd hsp
  obtain ⟨hI2, hh2, hg2, hbs2, hd2⟩ :=
    dirInv_redistribute (b1.contents.map Prod.snd) st4 st2 hInv4 hsp
  have hpairs4 : ∀ e, e ∈ storedPairs st4 ∨ e ∈ b1.contents ↔ e ∈ storedPairs st := by
    intro e
    constructor
    · intro hcase
      rcases hcase with hmem | hmem
      · rcases mem_storedPairs.mp hmem with ⟨j, b2, hj, hec⟩
        rcases hB4char j b2 hj with ⟨hji, hjn, hjold⟩ | hnew
        · exact contents_subset_storedPairs hjold hec
        · rw [hnew] at hec
          simp at hec
      · exact contents_subset_storedPairs hb hmem
    · intro hmem
      rcases mem_storedPairs.mp hmem with ⟨j, b2, hj, hec⟩
      by_cases hji : j = bucketIndex
      · subst hji
        rw [hj] at hb
        have hbb : b2 = b1 := by injection hb
        exact Or.inr (hbb ▸ hec)
      · have hjl : j < st.buckets.length := (List.getElem?_eq_some_iff.mp hj).1
        refine Or.inl (mem_storedPairs.mpr ⟨j, b2, ?_, hec⟩)
        show B4[j]? = some b2
        rw [hB4def, List.getElem?_append_left (by simpa using hjl),
          List.getElem?_set_ne (fun h2 => hji h2.symm)]
        exact hj
  refine ⟨hI2, hh2, hg2, hbs2, ?_⟩
  intro e
  rw [hred e, htup]
  exact hpairs4 e


theorem splitBucket_spec {τ : Type} {st st2 : BlockDirectory τ} {bucketIndex dn : ℕ}
    (hInv : DirInv st)
    (hlk : lookupKey st.directories dn = some bucketIndex)
    (hsb : splitBucket st bucketIndex dn = some st2) :
    DirInv st2 ∧ st2.hashT = st.hashT ∧ st2.bucketSize = st.bucketSize ∧
      (∀ e, e ∈ storedPairs st2 ↔ e ∈ storedPairs st) := by
  rw [splitBucket] at hsb
  rcases hb : st.buckets[bucketIndex]? with _ | b0
  · rw [hb] at hsb
    simp at hsb
  · rw [hb] at hsb
    simp only at hsb
    by_cases hx : b0.localDepth = st.globalDepth
    · rw [if_pos hx] at hsb
      have hIe := dirInv_expand hInv
      have hbe : (expandDirectory st).buckets[bucketIndex]? = some b0 := hb
      have hde : b0.localDepth < (expandDirectory st).globalDepth := by
        show b0.localDepth < st.globalDepth + 1
        omega
      have hdne : (dn, bucketIndex) ∈ (expandDirectory st).directories := by
        show (dn, bucketIndex) ∈ st.directories.flatMap
          fun p => [(p.1, p.2), (p.1 ||| (1 <<< st.globalDepth), p.2)]
        exact mem_doubled.mpr ⟨(dn, bucketIndex), lookupKey_mem hlk, Or.inl rfl⟩
      obtain ⟨h1, h2, h3, h4, h5⟩ := splitCore_spec hIe hbe hde hdne hsb
      exact ⟨h1, h2, h4, fun e => h5 e⟩
    · rw [if_neg hx] at hsb
      have hdl : b0.localDepth < st.globalDepth :=
        lt_of_le_of_ne (hInv.localLe b0 (List.getElem?_mem hb)) hx
      obtain ⟨h1, h2, h3, h4, h5⟩ := splitCore_spec hInv hb hdl (lookupKey_mem hlk) hsb
      exact ⟨h1, h2, h4, h5⟩
theorem insertHash_spec {τ : Type} :
    ∀ (fuel : ℕ) (st st2 : BlockDirectory τ) (t : τ) (res : Option τ) (h : ℕ),
    DirInv st → h = st.hashT t → insertHash st t h fuel = some (res, st2) →
    DirInv st2 ∧ st2.hashT = st.hashT ∧ st2.bucketSize = st.bucketSize ∧
      (∀ p, res = some p ↔ (h, p) ∈ storedPairs st) := by
  intro fuel
  induction fuel with
  | zero =>
      intro st st2 t res h _ _ hins
      rw [insertHash] at hins
      exact absurd hins (by simp)
  | succ fuel ih =>
      intro st st2 t res h hInv hht hins
      have hpow : 0 < 2 ^ st.globalDepth := Nat.pos_pow_of_pos _ (by norm_num)
      rw [insertHash] at hins
      rcases hpr : getBucketFromDirectory st (h &&& maskIter st.globalDepth) with ⟨i, stP⟩
      rw [hpr] at hins
      simp only at hins
      have hdnlt : h &&& maskIter st.globalDepth < 2 ^ st.globalDepth := by
        rw [and_maskIter]
        exact Nat.mod_lt h hpow
      obtain ⟨hIP, hlkP, hhP, hgP, hbsP, hspP⟩ := getBucket_spec hInv hdnlt hpr
      rcases hbk : stP.buckets[i]? with _ | bF
      · rw [hbk] at hins
        simp at hins
      · rw [hbk] at hins
        simp only at hins
        by_cases hfull : bF.contents.length = stP.bucketSize
        · rw [if_pos hfull] at hins
          rw [hlkP] at hins
          simp only at hins
          rcases hsb : splitBucket stP i (h &&& maskIter st.globalDepth) with _ | stS
          · rw [hsb] at hins
            simp at hins
          · rw [hsb] at hins
            simp only at hins
            obtain ⟨hIS, hhS, hbsS, hpairsS⟩ := splitBucket_spec hIP hlkP hsb
            have hhtS : h = stS.hashT t := by
              rw [hhS, hhP]
              exact hht
            obtain ⟨hI2, hh2, hbs2, hiff⟩ := ih stS st2 t res h hIS hhtS hins
            refine ⟨hI2, by rw [hh2, hhS, hhP], by rw [hbs2, hbsS, hbsP], ?_⟩
            intro p
            rw [hiff p, hpairsS (h, p), hspP]
        · rw [if_neg hfull] at hins
          by_cases hguard : (blockInsert bF.contents h t).1.isNone = true ∧
              stP.bucketSize < (blockInsert bF.contents h t).2.length
          · rw [if_pos hguard] at hins
            exact absurd hins (by simp)
          · rw [if_neg hguard] at hins
            rw [Option.some.injEq, Prod.mk.injEq] at hins
            obtain ⟨hres, hst2⟩ := hins
            subst hres
            subst hst2
            have hlkm : lookupKey stP.directories (h % 2 ^ stP.globalDepth) = some i := by
              rw [hgP, ← and_maskIter]
              exact hlkP
            have hInv2 := dirInv_insertFound hIP hlkm hbk (by rw [hhP]; exact hht)
            refine ⟨hInv2, by show stP.hashT = st.hashT; exact hhP,
              by show stP.bucketSize = st.bucketSize; exact hbsP, ?_⟩
            intro p
            constructor
            · intro hsome
              have hmem := blockInsert_fst_some_mem hsome
              rw [← hspP]
              exact contents_subset_storedPairs hbk hmem
            · intro hmem
              rw [← hspP] at hmem
              rcases mem_storedPairs.mp hmem with ⟨j, b2, hj, hec⟩
              have hfa := hIP.findable j b2 hj (h, p) hec
              have hji : j = i := by
                rw [hgP, ← and_maskIter] at hfa
                have hcomb := hfa.symm.trans hlkP
                injection hcomb.symm with hx
                exact hx.symm
              subst hji
              rw [hj] at hbk
              have hbb : b2 = bF := by injection hbk
              subst hbb
              exact blockInsert_fst_of_mem (hIP.hashesNodup b2 (List.getElem?_mem hj)) hec

/-! ### Reachable states satisfy the directory invariant -/

theorem reachable_dirInv {τ : Type} {st : BlockDirectory τ} (hr : Reachable st) :
    DirInv st := by
  induction hr with
  | init hashT bucketSize => exact dirInv_init hashT bucketSize
  | step hr0 hstep ih =>
      rw [storageInsert] at hstep
      exact (insertHash_spec _ _ _ _ _ _ ih rfl hstep).1

/-- C2 (counterexample): the claim says `Relation::insert` returns the
displaced `Option<Tuple>`.  It does not: its return type is unit.  On a
state holding the tuple `5` under the colliding hash, inserting `7` makes
the storage layer compute the displaced tuple `Some(5)`, but
`Relation::insert` returns `()`, discarding it. -/
theorem relation_insert_discards_displaced :
    (relationInsert stMid 7 1).map Prod.fst = some () ∧
    (storageInsert stMid 7 1).map Prod.fst = some (some 5) :=
  ⟨rfl, rfl⟩

/-- C2 (amended): the displaced-tuple semantics lives one layer down.
For every reachable directory state, a successful
`TupleStorage::insert`/`BlockDirectory::insert` returns `Some(previous)`
exactly when a tuple `previous` was stored under the inserted tuple's
primary-key hash, and `None` otherwise; a key collision displaces rather
than fails.  `Relation::insert` then throws this value away. -/
theorem insert_returns_displaced {τ : Type} {st st2 : BlockDirectory τ} {t : τ}
    {res : Option τ} {fuel : ℕ}
    (hr : Reachable st) (hins : storageInsert st t fuel = some (res, st2)) :
    ∀ p, res = some p ↔ (st.hashT t, p) ∈ storedPairs st := by
  rw [storageInsert] at hins
  exact (insertHash_spec fuel st st2 t res (st.hashT t) (reachable_dirInv hr) rfl hins).2.2.2

/-- C2 (witness): instantiating the amended theorem on the reachable
state `stMid` and the insert of `7` (which returns `some 5`) proves that
`(0, 5)` was indeed the stored pair under the colliding hash. -/
theorem insert_returns_displaced_witness :
    ((0 : ℕ), (5 : ℕ)) ∈ storedPairs stMid := by
  have hr : Reachable stMid :=
    @Reachable.step ℕ (initDirectory (fun _ => 0) 4) stMid 5 none 1
      (Reachable.init (fun _ => 0) 4) rfl
  exact (insert_returns_displaced hr (show storageInsert stMid 7 1 = some (some 5, stMid2) from rfl) 5).mp rfl

/-- C3 (counterexample): the claim says `|directories| = 2^global_depth`
once any key is registered.  After a single insert into a fresh directory
(bucket size 4) exactly one key is registered while the global depth is 1,
so the directory has 1 entry, not `2^1 = 2`: keys are registered lazily by
`get_bucket_from_directory`, never eagerly filled to `2^global_depth`. -/
theorem directory_count_not_two_pow :
    Reachable stC3 ∧ stC3.directories ≠ [] ∧
      stC3.directories.length ≠ 2 ^ stC3.globalDepth := by
  refine ⟨@Reachable.step ℕ (initDirectory (fun t => t) 4) stC3 0 none 1
    (Reachable.init (fun t => t) 4) rfl, ?_, ?_⟩
  · simp [stC3]
  · decide

/-- C3 (amended): on every reachable state the registered directory keys
are distinct values below `2^global_depth`, so `|directories| ≤
2^global_depth`; and `expand_directory` exactly doubles the number of
entries while incrementing the global depth (so equality, when it ever
holds, is preserved by expansion — but it is not established). -/
theorem directory_size_bound {τ : Type} {st : BlockDirectory τ} (hr : Reachable st) :
    st.directories.length ≤ 2 ^ st.globalDepth ∧
    (expandDirectory st).directories.length = 2 * st.directories.length ∧
    (expandDirectory st).globalDepth = st.globalDepth + 1 := by
  have hInv := reachable_dirInv hr
  refine ⟨?_, ?_, rfl⟩
  · calc st.directories.length = (st.directories.map Prod.fst).length := by simp
    _ = (st.directories.map Prod.fst).toFinset.card :=
        (List.toFinset_card_of_nodup hInv.keysNodup).symm
    _ ≤ (Finset.range (2 ^ st.globalDepth)).card := by
        apply Finset.card_le_card
        intro x hx
        rw [List.mem_toFinset] at hx
        rcases List.mem_map.mp hx with ⟨p, hp, rfl⟩
        exact Finset.mem_range.mpr (hInv.keysLt p hp)
    _ = 2 ^ st.globalDepth := Finset.card_range _
  · show (st.directories.flatMap fun p =>
      [(p.1, p.2), (p.1 ||| (1 <<< st.globalDepth), p.2)]).length = 2 * st.directories.length
    rw [List.length_flatMap]
    have hconst : ∀ p ∈ st.directories,
        (List.length ∘ fun p => [(p.1, p.2), (p.1 ||| (1 <<< st.globalDepth), p.2)]) p = 2 :=
      fun p _ => rfl
    rw [List.map_congr_left hconst]
    induction st.directories with
    | nil => simp
    | cons p rest ihl =>
        simp only [List.map_cons, List.sum_cons, List.length_cons] at ihl ⊢
        omega

/-- C3 (witness): the amended bound instantiated on the reachable
one-insert state `stC3`. -/
theorem directory_size_bound_witness :
    stC3.directories.length ≤ 2 ^ stC3.globalDepth ∧
    (expandDirectory stC3).directories.length = 2 * stC3.directories.length := by
  have hr : Reachable stC3 :=
    @Reachable.step ℕ (initDirectory (fun t => t) 4) stC3 0 none 1
      (Reachable.init (fun t => t) 4) rfl
  exact ⟨(directory_size_bound hr).1, (directory_size_bound hr).2.1⟩

/-- C4: after every public `BlockDirectory` operation (any sequence of
successful inserts with their splits and expansions, i.e. every reachable
state), each tuple stored in a bucket with local depth `d` has the low `d`
bits of its primary-key hash equal to the bucket's canonical directory
prefix: the common value mod `2^d` of every directory key mapped to that
bucket. -/
theorem bucket_prefix_invariant {τ : Type} {st : BlockDirectory τ} (hr : Reachable st) :
    ∀ p ∈ st.directories, ∀ b : Bucket τ, st.buckets[p.2]? = some b →
    ∀ e ∈ b.contents, st.hashT e.2 % 2 ^ b.localDepth = p.1 % 2 ^ b.localDepth := by
  have hInv := reachable_dirInv hr
  intro p hp b hb e he
  rw [← hInv.hashStored b (List.getElem?_mem hb) e he]
  have hfind := hInv.findable p.2 b hb e he
  have hmem : (e.1 % 2 ^ st.globalDepth, p.2) ∈ st.directories := lookupKey_mem hfind
  have hco := hInv.keysCoherent (e.1 % 2 ^ st.globalDepth, p.2) hmem p hp rfl b hb
  have hd : b.localDepth ≤ st.globalDepth := hInv.localLe b (List.getElem?_mem hb)
  have hmm : e.1 % 2 ^ st.globalDepth % 2 ^ b.localDepth = e.1 % 2 ^ b.localDepth :=
    Nat.mod_mod_of_dvd _ (pow_dvd_pow 2 hd)
  rw [← hmm]
  exact hco

/-- C4 (witness): the invariant instantiated on the reachable
split-and-expanded state `stB`, at the directory pair `(2, 1)`, its bucket
`⟨2, [(2, 2)]⟩` and the stored tuple `2`. -/
theorem bucket_prefix_invariant_witness :
    Reachable stB ∧ (2 : ℕ) % 2 ^ 2 = 2 % 2 ^ 2 := by
  have hr1 : Reachable stA :=
    @Reachable.step ℕ (initDirectory (fun t => t) 1) stA 0 none 1
      (Reachable.init (fun t => t) 1) rfl
  have hr : Reachable stB := @Reachable.step ℕ stA stB 2 none 2 hr1 rfl
  refine ⟨hr, ?_⟩
  have := bucket_prefix_invariant hr (2, 1) (by decide) ⟨2, [(2, 2)]⟩ rfl (2, 2) (by decide)
  exact this

end RadDB
